import Mathlib

/-!
Verification development for the Meshtastic flooding simulator
(`message.py`, `simulator.py`, `network.py`).

The Python classes are embedded shallowly:

* `Message` / `MessageManager.advance_time` / `get_active_messages` /
  `mark_delivered` come from `message.py`.
* `Simulator.setup_messages` and the two-pass `Simulator.step` come from
  `simulator.py`.  The matplotlib GUI (`run_gui`, `visualize`) is out of
  scope.  The Python `set`s holding frontier nodes are modelled as lists
  used only through membership, insertion and union (Python's set
  iteration order is unspecified; every set-valued result below is
  order independent, and claims about frontiers are stated through
  membership and subset).
* `Network._create_edges` is embedded over `ℝ` with the exact Euclidean
  distance, `Network._calculate_communication_radius` /
  `_average_neighbors` over `ℚ` with the measured distances abstracted as a
  function argument, and `Network._place_nodes` over `ℚ` with squared
  distances (for a nonnegative separation `s`, `math.dist p q < s` is
  equivalent to `dist2 p q < s ^ 2`).
* Calls to the `random` module are abstracted as explicit streams of drawn
  values, and Python's unbounded `while True` loops are modelled with an
  explicit fuel parameter: a result of `none` for every fuel means the
  loop never exits.
-/

namespace MeshSim

/-- Model of the `Message` class in `message.py`: identifier, endpoints,
release timestamp, time-to-live, and the three lifecycle flags, all of
which start out false.  The ttl value is drawn by `random.randint(3, 6)` in
the source and is carried here as plain data. -/
structure Message where
  message_id : ℕ
  source : ℕ
  destination : ℕ
  timestamp : ℕ
  ttl : ℕ
  active : Bool
  delivered : Bool
  expired : Bool
deriving DecidableEq

/-- `MessageManager.mark_delivered`: set `delivered`, clear `active`. -/
def deliverMark (m : Message) : Message :=
  { m with delivered := true, active := false }

/-- State of a running `Simulator` (`simulator.py`): the `MessageManager`
fields `messages` and `current_time`, the per-message-id frontier map
`message_states`, the per-message-id traversed-edge log `message_edges`,
and the per-step `blocked_nodes` set.  The `acknowledged` map belongs to
the GUI layer and is omitted.  The static network graph is passed to
`step` as an adjacency-list function `G`. -/
structure SimState where
  messages : List Message
  current_time : ℕ
  message_states : ℕ → List ℕ
  message_edges : ℕ → List (ℕ × ℕ)
  blocked_nodes : Finset ℕ

/-- The per-message body of `MessageManager.advance_time`: a message that is
neither delivered nor expired and whose release timestamp has been reached
becomes active. -/
def advanceMsg (time : ℕ) (m : Message) : Message :=
  if m.delivered = false ∧ m.expired = false ∧ m.timestamp ≤ time then
    { m with active := true }
  else m

/-- `MessageManager.advance_time`: increment the clock by one, then activate
every non-terminal message whose release timestamp has been reached. -/
def advance_time (s : SimState) : SimState :=
  { s with
    current_time := s.current_time + 1,
    messages := s.messages.map (advanceMsg (s.current_time + 1)) }

/-- A message taking part in a pass of `Simulator.step`: the
`get_active_messages` filter (`active and not delivered and not expired`)
combined with the in-loop guard
`if time < msg.timestamp or msg.delivered or msg.expired: continue`. -/
def eligible (time : ℕ) (m : Message) : Bool :=
  m.active && !m.delivered && !m.expired && decide (m.timestamp ≤ time)

/-- The multiset of hits tallied by the first pass of `Simulator.step`: one
entry per (eligible message, frontier node, fresh neighbor) triple, listing
the neighbor that would receive the transmission. -/
def hitList (G : ℕ → List ℕ) (time : ℕ) (msgs : List Message)
    (fr : ℕ → List ℕ) : List ℕ :=
  (msgs.filter (eligible time)).flatMap fun m =>
    (fr m.message_id).flatMap fun node =>
      (G node).filter fun nb => decide (nb ∉ fr m.message_id)

/-- The collision set computed by `Simulator.step`: nodes whose hit count
exceeds one. -/
def blockedSet (G : ℕ → List ℕ) (time : ℕ) (msgs : List Message)
    (fr : ℕ → List ℕ) : Finset ℕ :=
  (hitList G time msgs fr).toFinset.filter fun v =>
    1 < (hitList G time msgs fr).count v

/-- Locals of the propagation pass for one message: `new_seen`, the hops
appended to the message's edge log this step, and whether
`mark_delivered` has been called. -/
structure SpreadAcc where
  ns : List ℕ
  hops : List (ℕ × ℕ)
  dl : Bool
deriving DecidableEq

/-- Innermost body of the propagation pass: handle one neighbor of one
frontier node, skipping blocked receivers, recording fresh receivers and
their hop, and marking delivery when the receiver is the destination. -/
def visitNeighbor (blocked : Finset ℕ) (dest : ℕ) (seen : List ℕ)
    (node : ℕ) (acc : SpreadAcc) (nb : ℕ) : SpreadAcc :=
  if nb ∈ blocked then acc
  else
    let acc1 :=
      if nb ∉ seen then
        { acc with ns := insert nb acc.ns, hops := acc.hops ++ [(node, nb)] }
      else acc
    if nb = dest then { acc1 with dl := true } else acc1

/-- Propagation from one frontier node: a blocked node does not transmit;
otherwise every listed neighbor is visited. -/
def visitNode (G : ℕ → List ℕ) (blocked : Finset ℕ) (dest : ℕ)
    (seen : List ℕ) (acc : SpreadAcc) (node : ℕ) : SpreadAcc :=
  if node ∈ blocked then acc
  else (G node).foldl (visitNeighbor blocked dest seen node) acc

/-- The whole propagation pass for one message over the pre-step frontier
snapshot `seen`. -/
def spreadMsg (G : ℕ → List ℕ) (blocked : Finset ℕ) (dest : ℕ)
    (seen : List ℕ) : SpreadAcc :=
  seen.foldl (visitNode G blocked dest seen) ⟨[], [], false⟩

/-- Accumulator of the second pass of `Simulator.step`: the processed
messages, the frontier map, and the edge-log map. -/
structure PassAcc where
  out : List Message
  fr : ℕ → List ℕ
  ed : ℕ → List (ℕ × ℕ)

/-- Handling of one message in the second pass of `Simulator.step`: an
eligible message spreads from its frontier, its frontier absorbs
`new_seen`, its hops are appended to its edge log, and it is marked
delivered when a visited neighbor equals its destination. -/
def stepMsg (G : ℕ → List ℕ) (blocked : Finset ℕ) (time : ℕ)
    (acc : PassAcc) (m : Message) : PassAcc :=
  if eligible time m then
    let seen := acc.fr m.message_id
    let res := spreadMsg G blocked m.destination seen
    { out := acc.out ++ [if res.dl then deliverMark m else m],
      fr := fun id => if id = m.message_id then seen ++ res.ns else acc.fr id,
      ed := fun id =>
        if id = m.message_id then acc.ed id ++ res.hops else acc.ed id }
  else { acc with out := acc.out ++ [m] }

/-- The blocked set computed by one call of `Simulator.step` (after the
clock has advanced). -/
def stepBlocked (G : ℕ → List ℕ) (s : SimState) : Finset ℕ :=
  blockedSet G (advance_time s).current_time (advance_time s).messages
    (advance_time s).message_states

/-- The second pass of `Simulator.step`: fold the per-message propagation
over the advanced message list. -/
def passResult (G : ℕ → List ℕ) (s : SimState) : PassAcc :=
  (advance_time s).messages.foldl
    (stepMsg G (stepBlocked G s) (advance_time s).current_time)
    ⟨[], (advance_time s).message_states, (advance_time s).message_edges⟩

/-- `Simulator.step`: advance the clock, tally hits and compute the blocked
set from the pre-step frontiers, then run the propagation pass over every
message. -/
def step (G : ℕ → List ℕ) (s : SimState) : SimState :=
  { messages := (passResult G s).out,
    current_time := (advance_time s).current_time,
    message_states := (passResult G s).fr,
    message_edges := (passResult G s).ed,
    blocked_nodes := stepBlocked G s }

/-- `Simulator.setup_messages` (given an already generated message list):
clock at zero, each message's frontier initialised to the singleton of its
source, each edge log empty, no blocked nodes. -/
def setup_messages (msgs : List Message) : SimState :=
  { messages := msgs, current_time := 0,
    message_states :=
      msgs.foldl
        (fun f m => fun id => if id = m.message_id then [m.source] else f id)
        (fun _ => ([] : List ℕ)),
    message_edges := fun _ => [],
    blocked_nodes := ∅ }

/-- The inner `while True` of `MessageManager.generate_random_pairs`: draw a
source and a destination (the two `random.choice(node_ids)` calls are
abstracted as the value streams `cs` and `cd`, indexed by a running attempt
counter `t`) until the pair is proper and unused.  The loop is unbounded in
the source; it is modelled with fuel, and `none` means the loop has not
exited within `fuel` attempts.  On success the chosen pair and the next
attempt index are returned. -/
def findPair (used : List (ℕ × ℕ)) (cs cd : ℕ → ℕ) :
    ℕ → ℕ → Option ((ℕ × ℕ) × ℕ)
  | 0, _ => none
  | fuel + 1, t =>
    if cs t ≠ cd t ∧ (cs t, cd t) ∉ used then some ((cs t, cd t), t + 1)
    else findPair used cs cd fuel (t + 1)

/-- The `for i in range(num_messages)` loop of
`MessageManager.generate_random_pairs`: message `i` gets the next fresh
pair, release timestamp `0` in simultaneous mode and `i` otherwise, a ttl
drawn from the stream `cttl` (`random.randint(3, 6)` in the source), and
all lifecycle flags false. -/
def generateAux (cs cd cttl : ℕ → ℕ) (simult : Bool) (fuel : ℕ) :
    ℕ → ℕ → ℕ → List (ℕ × ℕ) → List Message → Option (List Message)
  | 0, _, _, _, acc => some acc
  | rem + 1, i, t, used, acc =>
    match findPair used cs cd fuel t with
    | none => none
    | some (p, t2) =>
      generateAux cs cd cttl simult fuel rem (i + 1) t2 (used ++ [p])
        (acc ++ [⟨i, p.1, p.2, if simult then 0 else i, cttl i,
          false, false, false⟩])

/-- `MessageManager.generate_random_pairs num_messages node_ids`, with the
random draws abstracted as streams (theorems constrain the stream values to
`node_ids`) and the unbounded retry loop given `fuel` attempts per
message. -/
def generate_random_pairs (num : ℕ) (cs cd cttl : ℕ → ℕ) (simult : Bool)
    (fuel : ℕ) : Option (List Message) :=
  generateAux cs cd cttl simult fuel num 0 0 [] []

/-- `math.hypot`, the Euclidean norm used by `Network._distance` and
`Node.distance_from`. -/
noncomputable def hypot (dx dy : ℝ) : ℝ := Real.sqrt (dx ^ 2 + dy ^ 2)

/-- Euclidean distance between two node positions. -/
noncomputable def nodeDist (p q : ℝ × ℝ) : ℝ := hypot (p.1 - q.1) (p.2 - q.2)

/-- `Network._create_edges`: the double loop over all ordered node pairs,
adding the directed entry `(i, j)` whenever `i ≠ j` and the Euclidean
distance is within the communication radius.  Node `i` is the `i`-th entry
of the position list `ps`. -/
noncomputable def create_edges (ps : List (ℝ × ℝ)) (r : ℝ) : List (ℕ × ℕ) :=
  (List.range ps.length).flatMap fun i =>
    ((List.range ps.length).filter fun j =>
        decide (i ≠ j) &&
          decide (nodeDist (ps.getD i (0, 0)) (ps.getD j (0, 0)) ≤ r)).map
      fun j => (i, j)

/-- Adjacency in the undirected `networkx` graph built by `_create_edges`:
an edge is present when either directed entry was added. -/
def adjacent (edges : List (ℕ × ℕ)) (i j : ℕ) : Prop :=
  (i, j) ∈ edges ∨ (j, i) ∈ edges

/-- `Network._average_neighbors`: the number of other nodes within `radius`
of each node, averaged over all nodes; `0` when there are no nodes.  The
pairwise Euclidean distances are abstracted as the function `d` (the
calibration search in `_calculate_communication_radius` is independent of
how the distances arise; `nodeDist` above is the concrete instance). -/
def average_neighbors (d : ℕ → ℕ → ℚ) (n : ℕ) (radius : ℚ) : ℚ :=
  if n = 0 then 0
  else
    (((List.range n).map fun i =>
        ((((List.range n).filter fun j =>
            decide (i ≠ j) && decide (d i j ≤ radius)).length : ℕ) : ℚ)).sum)
      / n

/-- The pairwise distance samples `dists` collected by
`_calculate_communication_radius` on the exact (small-network) path: `d i j`
for all `i < j`. -/
def pairDists (d : ℕ → ℕ → ℚ) (n : ℕ) : List ℚ :=
  (List.range n).flatMap fun i =>
    ((List.range n).filter fun j => decide (i < j)).map (d i)

/-- Minimum of a list of rationals, `0` for the empty list (the source only
takes the minimum of a nonempty sample). -/
def listMin : List ℚ → ℚ
  | [] => 0
  | x :: xs => xs.foldl min x

/-- Maximum of a list of rationals, `0` for the empty list. -/
def listMax : List ℚ → ℚ
  | [] => 0
  | x :: xs => xs.foldl max x

/-- The 15-iteration bisection loop of `_calculate_communication_radius`:
return the midpoint as soon as the achieved average degree is within `0.3`
of the target, otherwise narrow the bracket toward the target, and return
the midpoint of the final bracket when the iterations are exhausted. -/
def bisect (avg : ℚ → ℚ) (target : ℚ) : ℕ → ℚ → ℚ → ℚ
  | 0, lo, hi => (lo + hi) / 2
  | fuel + 1, lo, hi =>
    if |avg ((lo + hi) / 2) - target| < 3 / 10 then (lo + hi) / 2
    else if avg ((lo + hi) / 2) < target then
      bisect avg target fuel ((lo + hi) / 2) hi
    else bisect avg target fuel lo ((lo + hi) / 2)

/-- The distance samples `dists` collected by
`_calculate_communication_radius`: for more than 50 nodes, 2000 pair
distances whose node pairs are drawn by `random.sample(node_list, 2)`
(the drawn index pairs are abstracted as the stream `samp`, like every
other random draw in this development); for small networks, the exact
all-pairs list.  The source sorts `dists` before taking `min`/`max`,
which does not change either. -/
def sampledDists (d : ℕ → ℕ → ℚ) (samp : ℕ → ℕ × ℕ) (n : ℕ) : List ℚ :=
  if 50 < n then (List.range 2000).map fun t => d (samp t).1 (samp t).2
  else pairDists d n

/-- `Network._calculate_communication_radius`: `space_size / 4` for fewer
than two nodes, otherwise bisection over the bracket spanned by the
smallest and largest collected pairwise distance (sampled for more than
50 nodes, exact otherwise). -/
def calculate_communication_radius (d : ℕ → ℕ → ℚ) (samp : ℕ → ℕ × ℕ)
    (n : ℕ) (space_size target : ℚ) : ℚ :=
  if n < 2 then space_size / 4
  else
    bisect (average_neighbors d n) target 15
      (listMin (sampledDists d samp n)) (listMax (sampledDists d samp n))

/-- One bracket-narrowing move of the bisection, without the early-return
test: used to describe which bracket the search inspects at each
iteration. -/
def narrowStep (avg : ℚ → ℚ) (target : ℚ) (p : ℚ × ℚ) : ℚ × ℚ :=
  if avg ((p.1 + p.2) / 2) < target then ((p.1 + p.2) / 2, p.2)
  else (p.1, (p.1 + p.2) / 2)

/-- Midpoint of a bracket. -/
def midpt (p : ℚ × ℚ) : ℚ := (p.1 + p.2) / 2

/-- The early-return condition of the bisection: the achieved average
degree at the bracket midpoint is within `0.3` of the target. -/
def tolMet (avg : ℚ → ℚ) (target : ℚ) (p : ℚ × ℚ) : Prop :=
  |avg (midpt p) - target| < 3 / 10

/-- Squared Euclidean distance over rational coordinates, used for the
placement model: for `0 ≤ s`, the source's test `math.dist p q < s` is
equivalent to `dist2 p q < s ^ 2`. -/
def dist2 (p q : ℚ × ℚ) : ℚ := (p.1 - q.1) ^ 2 + (p.2 - q.2) ^ 2

/-- The acceptance test of `Network._place_nodes`: a candidate is too close
when some already placed position is within the current minimum
separation. -/
def tooClose (p : ℚ × ℚ) (positions : List (ℚ × ℚ)) (minDist : ℚ) : Bool :=
  positions.any fun q => decide (dist2 p q < minDist ^ 2)

/-- The placement loop of `Network._place_nodes`.  Candidate generation
(the three phases: rejection sampling, perturbed hex grid, greedy max-min)
only decides which point is proposed at each attempt and is abstracted as
the stream `cand`; the acceptance check, the attempt budget, and the
multiplicative `* 0.98` relaxation of the minimum separation once attempts
exceed three quarters of the budget are modelled exactly.  `fuel` is the
number of attempts left (`budget - attempts` at the call). -/
def place_nodes_loop (cand : ℕ → ℚ × ℚ) (count budget : ℕ) :
    ℕ → ℕ → List (ℚ × ℚ) → ℚ → List (ℚ × ℚ) × ℚ
  | 0, _, positions, minDist => (positions, minDist)
  | fuel + 1, attempts, positions, minDist =>
    if positions.length < count then
      if tooClose (cand attempts) positions minDist then
        place_nodes_loop cand count budget fuel (attempts + 1) positions
          (if 3 * budget < 4 * (attempts + 1) then minDist * (98 / 100)
           else minDist)
      else
        place_nodes_loop cand count budget fuel (attempts + 1)
          (positions ++ [cand attempts]) minDist
    else (positions, minDist)

/-- `Network._place_nodes`: run the loop from an empty position list with a
full attempt budget (`num_nodes * 800` in the source) and the initial
minimum separation (`max 2 (space_size / sqrt (num_nodes * 2.5))` in the
source); returns the placed positions together with the effective minimum
separation in force at the end. -/
def place_nodes (cand : ℕ → ℚ × ℚ) (count budget : ℕ) (minDist0 : ℚ) :
    List (ℚ × ℚ) × ℚ :=
  place_nodes_loop cand count budget budget 0 [] minDist0

/-- The list of distinct (message index, sender) transmission attempts that
would land on node `v` this step, written from the specification's wording
for comparison with the code's tally `hitList`: message `i` must be
eligible, the sender must lie in its frontier, and `v` must be a fresh
neighbor of the sender for that message. -/
def attemptPairs (G : ℕ → List ℕ) (time : ℕ) (msgs : List Message)
    (fr : ℕ → List ℕ) (v : ℕ) : List (ℕ × ℕ) :=
  (msgs.enum.filter fun p => eligible time p.2).flatMap fun p =>
    ((fr p.2.message_id).filter fun u =>
        decide (v ∈ G u) && decide (v ∉ fr p.2.message_id)).map
      fun u => (p.1, u)

/-- Two messages that agree on every field except possibly the
destination. -/
def sameExceptDest (m m2 : Message) : Prop :=
  m2.message_id = m.message_id ∧ m2.source = m.source ∧
    m2.timestamp = m.timestamp ∧ m2.ttl = m.ttl ∧ m2.active = m.active ∧
    m2.delivered = m.delivered ∧ m2.expired = m.expired

/-- Mutual exclusion of the lifecycle flags of a message: at most one of
`active`, `delivered`, `expired` holds. -/
def flagsExclusive (m : Message) : Prop :=
  ¬(m.active = true ∧ m.delivered = true) ∧
    ¬(m.active = true ∧ m.expired = true) ∧
    ¬(m.delivered = true ∧ m.expired = true)

/-- A concrete line topology 0 – 1 – 2 plus an isolated node 3, used by the
concrete instances below. -/
def lineG : ℕ → List ℕ := fun u => ([[1], [0, 2], [1], []] : List (List ℕ)).getD u []

/-- A graph with no edges at all. -/
def emptyG : ℕ → List ℕ := fun _ => []

/-- Three fresh messages released at time 0 whose sources are 1, 0 and 2
and whose destinations are the isolated node 3: after `setup_messages`,
stepping over `lineG` makes node 1 collide (it is hit by the messages from
node 0 and from node 2). -/
def threeMsgs : List Message :=
  [⟨0, 1, 3, 0, 5, false, false, false⟩,
   ⟨1, 0, 3, 0, 5, false, false, false⟩,
   ⟨2, 2, 3, 0, 5, false, false, false⟩]

/-! Generic fold invariants. -/

theorem foldl_inv {α : Type _} {β : Type _} (f : α → β → α) (P : α → Prop)
    (hf : ∀ a b, P a → P (f a b)) :
    ∀ (l : List β) (a : α), P a → P (l.foldl f a) := by
  intro l
  induction l with
  | nil => exact fun a h => h
  | cons x xs ih => exact fun a h => ih (f a x) (hf a x h)

/-! Field characterisation of `visitNeighbor` and invariants of the
propagation pass. -/

theorem visitNeighbor_ns (b : Finset ℕ) (dest : ℕ) (seen : List ℕ)
    (node : ℕ) (acc : SpreadAcc) (nb : ℕ) :
    (visitNeighbor b dest seen node acc nb).ns =
      if nb ∈ b then acc.ns
      else if nb ∈ seen then acc.ns else insert nb acc.ns := by
  unfold visitNeighbor
  split_ifs <;> simp_all

theorem visitNeighbor_hops (b : Finset ℕ) (dest : ℕ) (seen : List ℕ)
    (node : ℕ) (acc : SpreadAcc) (nb : ℕ) :
    (visitNeighbor b dest seen node acc nb).hops =
      if nb ∈ b then acc.hops
      else if nb ∈ seen then acc.hops else acc.hops ++ [(node, nb)] := by
  unfold visitNeighbor
  split_ifs <;> simp_all

theorem visitNeighbor_dl (b : Finset ℕ) (dest : ℕ) (seen : List ℕ)
    (node : ℕ) (acc : SpreadAcc) (nb : ℕ) :
    (visitNeighbor b dest seen node acc nb).dl =
      if nb ∈ b then acc.dl else if nb = dest then true else acc.dl := by
  unfold visitNeighbor
  split_ifs <;> simp_all

theorem spread_ns_unblocked (G : ℕ → List ℕ) (b : Finset ℕ) (dest : ℕ)
    (seen : List ℕ) : ∀ v ∈ (spreadMsg G b dest seen).ns, v ∉ b := by
  have h := foldl_inv (visitNode G b dest seen)
    (fun acc => ∀ v ∈ acc.ns, v ∉ b) ?_ seen
    ⟨[], [], false⟩ (by simp)
  · exact h
  · intro acc node hacc
    unfold visitNode
    split_ifs with hn
    · exact hacc
    · refine foldl_inv (visitNeighbor b dest seen node)
        (fun a => ∀ v ∈ a.ns, v ∉ b) ?_ (G node) acc hacc
      intro a nb ha v hv
      rw [visitNeighbor_ns] at hv
      by_cases hb : nb ∈ b
      · simp [hb] at hv; exact ha v hv
      · simp [hb] at hv
        by_cases hs : nb ∈ seen
        · simp [hs] at hv; exact ha v hv
        · simp only [hs, if_true, if_pos] at hv
          rcases List.mem_insert_iff.mp hv with h1 | h1
          · exact h1 ▸ hb
          · exact ha v h1

theorem spread_hops_unblocked (G : ℕ → List ℕ) (b : Finset ℕ) (dest : ℕ)
    (seen : List ℕ) :
    ∀ e ∈ (spreadMsg G b dest seen).hops, e.1 ∉ b ∧ e.2 ∉ b := by
  have h := foldl_inv (visitNode G b dest seen)
    (fun acc => ∀ e ∈ acc.hops, e.1 ∉ b ∧ e.2 ∉ b) ?_
    seen ⟨[], [], false⟩ (by simp)
  · exact h
  · intro acc node hacc
    unfold visitNode
    split_ifs with hn
    · exact hacc
    · refine foldl_inv (visitNeighbor b dest seen node)
        (fun a => ∀ e ∈ a.hops, e.1 ∉ b ∧ e.2 ∉ b) ?_ (G node) acc hacc
      intro a nb ha e he
      rw [visitNeighbor_hops] at he
      by_cases hb : nb ∈ b
      · simp [hb] at he; exact ha e he
      · simp [hb] at he
        by_cases hs : nb ∈ seen
        · simp [hs] at he; exact ha e he
        · simp [hs] at he
          rcases he with h1 | h1
          · exact ha e h1
          · subst h1
            exact ⟨hn, hb⟩

theorem spread_dl_unblocked (G : ℕ → List ℕ) (b : Finset ℕ) (dest : ℕ)
    (seen : List ℕ) : (spreadMsg G b dest seen).dl = true → dest ∉ b := by
  have h := foldl_inv (visitNode G b dest seen)
    (fun acc => acc.dl = true → dest ∉ b) ?_
    seen ⟨[], [], false⟩ (by simp)
  · exact h
  · intro acc node hacc
    unfold visitNode
    split_ifs with hn
    · exact hacc
    · refine foldl_inv (visitNeighbor b dest seen node)
        (fun a => a.dl = true → dest ∉ b) ?_ (G node) acc hacc
      intro a nb ha hdl
      rw [visitNeighbor_dl] at hdl
      by_cases hb : nb ∈ b
      · simp [hb] at hdl; exact ha hdl
      · simp [hb] at hdl
        by_cases hd : nb = dest
        · exact hd ▸ hb
        · simp [hd] at hdl; exact ha hdl

/-! Invariants of the second pass of `step` (fold of `stepMsg`). -/

theorem pass_fr_mono (G : ℕ → List ℕ) (b : Finset ℕ) (time : ℕ)
    (fr0 : ℕ → List ℕ) :
    ∀ (msgs : List Message) (acc : PassAcc), (∀ k, fr0 k ⊆ acc.fr k) →
      ∀ k, fr0 k ⊆ (msgs.foldl (stepMsg G b time) acc).fr k := by
  intro msgs acc hacc
  refine foldl_inv (stepMsg G b time) (fun a => ∀ k, fr0 k ⊆ a.fr k) ?_
    msgs acc hacc
  intro a m ha k
  unfold stepMsg
  split_ifs with he
  · by_cases hk : k = m.message_id
    · subst hk
      simp only [if_pos rfl]
      exact (ha m.message_id).trans (List.subset_append_left _ _)
    · simpa [hk] using ha k
  · exact ha k

theorem pass_fr_new_unblocked (G : ℕ → List ℕ) (b : Finset ℕ) (time : ℕ)
    (fr0 : ℕ → List ℕ) :
    ∀ (msgs : List Message) (acc : PassAcc),
      (∀ k v, v ∈ acc.fr k → v ∈ fr0 k ∨ v ∉ b) →
      ∀ k v, v ∈ (msgs.foldl (stepMsg G b time) acc).fr k →
        v ∈ fr0 k ∨ v ∉ b := by
  intro msgs acc hacc
  refine foldl_inv (stepMsg G b time)
    (fun a => ∀ k v, v ∈ a.fr k → v ∈ fr0 k ∨ v ∉ b) ?_ msgs acc hacc
  intro a m ha k v hv
  unfold stepMsg at hv
  split_ifs at hv with he
  · by_cases hk : k = m.message_id
    · subst hk
      simp only [if_pos rfl] at hv
      rcases List.mem_append.mp hv with h1 | h1
      · exact ha _ v h1
      · exact Or.inr (spread_ns_unblocked G b m.destination _ v h1)
    · simp only [if_neg hk] at hv
      exact ha k v hv
  · exact ha k v hv

theorem pass_ed_appends (G : ℕ → List ℕ) (b : Finset ℕ) (time : ℕ)
    (ed0 : ℕ → List (ℕ × ℕ)) :
    ∀ (msgs : List Message) (acc : PassAcc),
      (∀ k, ∃ t, acc.ed k = ed0 k ++ t ∧ ∀ e ∈ t, e.1 ∉ b ∧ e.2 ∉ b) →
      ∀ k, ∃ t, (msgs.foldl (stepMsg G b time) acc).ed k = ed0 k ++ t ∧
        ∀ e ∈ t, e.1 ∉ b ∧ e.2 ∉ b := by
  intro msgs acc hacc
  refine foldl_inv (stepMsg G b time)
    (fun a => ∀ k, ∃ t, a.ed k = ed0 k ++ t ∧
      ∀ e ∈ t, e.1 ∉ b ∧ e.2 ∉ b) ?_ msgs acc hacc
  intro a m ha k
  unfold stepMsg
  split_ifs with he
  · by_cases hk : k = m.message_id
    · subst hk
      obtain ⟨t, ht, hall⟩ := ha m.message_id
      refine ⟨t ++ (spreadMsg G b m.destination (a.fr m.message_id)).hops, ?_, ?_⟩
      · simp [ht, List.append_assoc]
      · intro e hee
        rcases List.mem_append.mp hee with h1 | h1
        · exact hall e h1
        · exact spread_hops_unblocked G b m.destination _ e h1
    · simpa [hk] using ha k
  · exact ha k

/-- Master description of the message list produced by the second pass:
one output per input message, in order; a non-eligible message passes
through unchanged, and an eligible one is either unchanged or marked
delivered, in which case its destination is not blocked. -/
theorem pass_out (G : ℕ → List ℕ) (b : Finset ℕ) (time : ℕ) :
    ∀ (msgs : List Message) (acc : PassAcc),
      ∃ tl, (msgs.foldl (stepMsg G b time) acc).out = acc.out ++ tl ∧
        tl.length = msgs.length ∧
        ∀ (i : ℕ) (h : i < msgs.length) (h2 : i < tl.length),
          (eligible time (msgs.get ⟨i, h⟩) = false →
            tl.get ⟨i, h2⟩ = msgs.get ⟨i, h⟩) ∧
          (tl.get ⟨i, h2⟩ = msgs.get ⟨i, h⟩ ∨
            (eligible time (msgs.get ⟨i, h⟩) = true ∧
              tl.get ⟨i, h2⟩ = deliverMark (msgs.get ⟨i, h⟩) ∧
              (msgs.get ⟨i, h⟩).destination ∉ b)) := by
  intro msgs
  induction msgs with
  | nil => exact fun acc => ⟨[], by simp, by simp, fun i h => absurd h (by simp)⟩
  | cons m rest ih =>
    intro acc
    obtain ⟨tl, hout, hlen, hprops⟩ := ih (stepMsg G b time acc m)
    have hone : ∃ x, (stepMsg G b time acc m).out = acc.out ++ [x] ∧
        (eligible time m = false → x = m) ∧
        (x = m ∨ (eligible time m = true ∧ x = deliverMark m ∧
          m.destination ∉ b)) := by
      unfold stepMsg
      split_ifs with he
      · by_cases hdl :
          (spreadMsg G b m.destination (acc.fr m.message_id)).dl = true
        · refine ⟨deliverMark m, by simp [hdl], fun hc => absurd he (by simp [hc]), ?_⟩
          exact Or.inr ⟨he, rfl, spread_dl_unblocked G b m.destination _ hdl⟩
        · refine ⟨m, ?_, fun _ => rfl, Or.inl rfl⟩
          simp only [Bool.not_eq_true] at hdl
          simp [hdl]
      · exact ⟨m, by simp, fun _ => rfl, Or.inl rfl⟩
    obtain ⟨x, hx, hxne, hxor⟩ := hone
    refine ⟨x :: tl, ?_, by simp [hlen], ?_⟩
    · rw [List.foldl_cons, hout, hx, List.append_assoc]
      rfl
    · intro i h h2
      match i with
      | 0 => exact ⟨fun hne => hxne hne, by simpa using hxor⟩
      | Nat.succ i =>
        have h3 : i < rest.length := by simpa using h
        have h4 : i < tl.length := by simpa using h2
        simpa using hprops i h3 h4

/-! Projection and preservation lemmas for `advance_time` and `step`. -/

theorem advanceMsg_expired (t : ℕ) (m : Message) :
    (advanceMsg t m).expired = m.expired := by
  unfold advanceMsg
  split_ifs <;> rfl

theorem deliverMark_expired (m : Message) :
    (deliverMark m).expired = m.expired := rfl

theorem advanceMsg_terminal (t : ℕ) (m : Message)
    (h : m.delivered = true ∨ m.expired = true) : advanceMsg t m = m := by
  unfold advanceMsg
  rcases h with h | h <;> rw [if_neg (by simp [h])]

theorem advance_messages (s : SimState) :
    (advance_time s).messages =
      s.messages.map (advanceMsg (s.current_time + 1)) := rfl

theorem advance_states (s : SimState) :
    (advance_time s).message_states = s.message_states := rfl

theorem advance_edges (s : SimState) :
    (advance_time s).message_edges = s.message_edges := rfl

theorem advance_current_time (s : SimState) :
    (advance_time s).current_time = s.current_time + 1 := rfl

theorem step_messages_eq (G : ℕ → List ℕ) (s : SimState) :
    (step G s).messages = (passResult G s).out := rfl

theorem step_states_eq (G : ℕ → List ℕ) (s : SimState) :
    (step G s).message_states = (passResult G s).fr := rfl

theorem step_edges_eq (G : ℕ → List ℕ) (s : SimState) :
    (step G s).message_edges = (passResult G s).ed := rfl

theorem step_blocked_eq (G : ℕ → List ℕ) (s : SimState) :
    (step G s).blocked_nodes = stepBlocked G s := rfl

theorem advance_map_expired (s : SimState) :
    (advance_time s).messages.map Message.expired =
      s.messages.map Message.expired := by
  rw [advance_messages, List.map_map]
  have h : Message.expired ∘ advanceMsg (s.current_time + 1) = Message.expired :=
    funext fun m => advanceMsg_expired _ m
  rw [h]

/-- Pointwise description of the message list after one `step`: position by
position, the advanced message passes through unchanged unless it was
eligible and got marked delivered, in which case its destination is not in
the step's blocked set. -/
theorem step_messages_pointwise (G : ℕ → List ℕ) (s : SimState) :
    (step G s).messages.length = s.messages.length ∧
    ∀ (i : ℕ) (hi : i < s.messages.length)
      (hi2 : i < (step G s).messages.length),
      (eligible (s.current_time + 1)
          (advanceMsg (s.current_time + 1) (s.messages.get ⟨i, hi⟩)) = false →
        (step G s).messages.get ⟨i, hi2⟩ =
          advanceMsg (s.current_time + 1) (s.messages.get ⟨i, hi⟩)) ∧
      ((step G s).messages.get ⟨i, hi2⟩ =
          advanceMsg (s.current_time + 1) (s.messages.get ⟨i, hi⟩) ∨
        (eligible (s.current_time + 1)
            (advanceMsg (s.current_time + 1) (s.messages.get ⟨i, hi⟩)) = true ∧
          (step G s).messages.get ⟨i, hi2⟩ =
            deliverMark
              (advanceMsg (s.current_time + 1) (s.messages.get ⟨i, hi⟩)) ∧
          (advanceMsg (s.current_time + 1)
              (s.messages.get ⟨i, hi⟩)).destination ∉
            (step G s).blocked_nodes)) := by
  obtain ⟨tl, hout, hlen, hprops⟩ := pass_out G (stepBlocked G s)
    (advance_time s).current_time (advance_time s).messages
    ⟨[], (advance_time s).message_states, (advance_time s).message_edges⟩
  have hmsgs : (step G s).messages = tl := by
    have h2 : (passResult G s).out = tl := by
      unfold passResult
      rw [hout]
      rfl
    rw [step_messages_eq, h2]
  have hlen2 : (advance_time s).messages.length = s.messages.length := by
    rw [advance_messages, List.length_map]
  constructor
  · rw [hmsgs, hlen, hlen2]
  · intro i hi hi2
    have hia : i < (advance_time s).messages.length := by rw [hlen2]; exact hi
    have hitl : i < tl.length := by rw [hlen, hlen2]; exact hi
    have hget : (advance_time s).messages.get ⟨i, hia⟩ =
        advanceMsg (s.current_time + 1) (s.messages.get ⟨i, hi⟩) := by
      simp [advance_messages, List.get_eq_getElem, List.getElem_map]
    have hstepget : ∀ h2 : i < (step G s).messages.length,
        (step G s).messages.get ⟨i, h2⟩ = tl.get ⟨i, hitl⟩ := by
      intro h2
      simp only [List.get_eq_getElem]
      congr 1
    have hp := hprops i hia hitl
    rw [hget] at hp
    rw [hstepget hi2, step_blocked_eq]
    exact hp

theorem step_map_expired (G : ℕ → List ℕ) (s : SimState) :
    (step G s).messages.map Message.expired =
      s.messages.map Message.expired := by
  obtain ⟨hl, hp⟩ := step_messages_pointwise G s
  rw [← advance_map_expired s, advance_messages]
  refine List.ext_get (by simp [hl]) ?_
  intro n h1 h2
  have hn : n < s.messages.length := by simpa using h2
  have hn2 : n < (step G s).messages.length := by simpa using h1
  have h := (hp n hn hn2).2
  simp only [List.get_eq_getElem, List.getElem_map]
  rcases h with h | ⟨_, h, _⟩ <;>
    simp only [List.get_eq_getElem] at h <;> rw [h]
  · rw [deliverMark_expired]

/-- C1.  The spec says a message whose TTL has elapsed transitions to
`Expired` on the step where the threshold is crossed.  The code never does:
`Simulator.step` contains no call to `MessageManager.mark_expired`, so the
`expired` flags are invariant under any number of steps; concretely, a
message with ttl 3 that can never be delivered is still unexpired (and
still active) after 10 steps. -/
theorem ttl_expiry_never_happens :
    (∀ (G : ℕ → List ℕ) (s : SimState) (n : ℕ),
        ((step G)^[n] s).messages.map Message.expired =
          s.messages.map Message.expired) ∧
      ((step emptyG)^[10]
            (setup_messages [⟨0, 0, 1, 0, 3, false, false, false⟩])).messages =
        [⟨0, 0, 1, 0, 3, true, false, false⟩] := by
  constructor
  · intro G s n
    induction n with
    | zero => rfl
    | succ n ih => rw [Function.iterate_succ_apply', step_map_expired, ih]
  · decide

/-- Value of the frontier-initialisation fold of `setup_messages` at a key
not hit by any message of the list. -/
theorem setup_fold_ne :
    ∀ (l : List Message) (f0 : ℕ → List ℕ) (k : ℕ),
      (∀ m ∈ l, m.message_id ≠ k) →
      (l.foldl
          (fun f m => fun j => if j = m.message_id then [m.source] else f j)
          f0) k = f0 k := by
  intro l
  induction l with
  | nil => intro f0 k _; rfl
  | cons m rest ih =>
    intro f0 k h
    rw [List.foldl_cons]
    rw [ih _ k (fun m2 hm2 => h m2 (List.mem_cons_of_mem _ hm2))]
    have hne : ¬(k = m.message_id) := fun hk =>
      h m (List.mem_cons_self _ _) hk.symm
    simp [hne]

/-- With pairwise distinct message ids, `setup_messages` maps each
message's id to the singleton of its source. -/
theorem setup_fold_get :
    ∀ (l : List Message) (f0 : ℕ → List ℕ),
      (l.map Message.message_id).Nodup →
      ∀ (i : ℕ) (hi : i < l.length),
        (l.foldl
            (fun f m => fun j => if j = m.message_id then [m.source] else f j)
            f0) ((l.get ⟨i, hi⟩).message_id) = [(l.get ⟨i, hi⟩).source] := by
  intro l
  induction l with
  | nil => intro f0 _ i hi; simp at hi
  | cons m rest ih =>
    intro f0 h i hi
    rw [List.foldl_cons]
    match i with
    | 0 =>
      have hne : ∀ m2 ∈ rest, m2.message_id ≠ m.message_id := by
        intro m2 hm2 heq
        simp only [List.map_cons, List.nodup_cons] at h
        exact h.1 (heq ▸ List.mem_map_of_mem Message.message_id hm2)
      have h0 : (m :: rest).get ⟨0, hi⟩ = m := rfl
      rw [h0]
      rw [setup_fold_ne rest _ m.message_id hne]
      simp
    | Nat.succ j =>
      have h2 : (rest.map Message.message_id).Nodup := by
        simp only [List.map_cons, List.nodup_cons] at h
        exact h.2
      have hj : j < rest.length := by simpa using hi
      exact ih _ h2 j hj

/-- C3 (amended).  The per-message frontier is monotone under `step` and
starts as the singleton of the source at setup; no node blocked in a step
is added to any frontier during that step.  (The original claim that the
frontier never contains a blocked node fails: a node that already received
a message earlier can collide later, see the counterexample.) -/
theorem frontier_monotone_blocked_not_added (G : ℕ → List ℕ) (s : SimState)
    (k : ℕ) :
    (s.message_states k ⊆ (step G s).message_states k) ∧
      (∀ v ∈ (step G s).message_states k,
        v ∈ s.message_states k ∨ v ∉ (step G s).blocked_nodes) ∧
      (∀ (msgs : List Message), (msgs.map Message.message_id).Nodup →
        ∀ (i : ℕ) (hi : i < msgs.length),
          (setup_messages msgs).message_states
              ((msgs.get ⟨i, hi⟩).message_id) =
            [(msgs.get ⟨i, hi⟩).source]) := by
  refine ⟨?_, ?_, ?_⟩
  · rw [step_states_eq]
    exact pass_fr_mono G (stepBlocked G s) (advance_time s).current_time
      s.message_states (advance_time s).messages
      ⟨[], (advance_time s).message_states, (advance_time s).message_edges⟩
      (fun _ => List.Subset.refl _) k
  · rw [step_states_eq, step_blocked_eq]
    intro v hv
    exact pass_fr_new_unblocked G (stepBlocked G s)
      (advance_time s).current_time s.message_states
      (advance_time s).messages
      ⟨[], (advance_time s).message_states, (advance_time s).message_edges⟩
      (fun _ _ hv2 => Or.inl hv2) k v hv
  · intro msgs h i hi
    exact setup_fold_get msgs _ h i hi

/-- C3 counterexample.  On the line 0 – 1 – 2 with the three setup messages
(sources 1, 0, 2, all destined to the isolated node 3), the first step
blocks node 1, yet node 1 is in the frontier of message 0 (it is that
message's source), refuting the claim that a frontier never includes a node
blocked for the step. -/
theorem frontier_blocked_member_counterexample :
    1 ∈ (step lineG (setup_messages threeMsgs)).blocked_nodes ∧
      1 ∈ (step lineG (setup_messages threeMsgs)).message_states 0 := by
  decide

/-- Witness for C3 on a concrete run (frontier monotone after one step;
setup frontier of message 0 is the singleton of its source). -/
theorem frontier_monotone_blocked_not_added_witness :
    ((setup_messages threeMsgs).message_states 0 ⊆
        (step lineG (setup_messages threeMsgs)).message_states 0) ∧
      (setup_messages threeMsgs).message_states
          ((threeMsgs.get ⟨0, by decide⟩).message_id) =
        [(threeMsgs.get ⟨0, by decide⟩).source] := by
  refine ⟨(frontier_monotone_blocked_not_added lineG
    (setup_messages threeMsgs) 0).1, ?_⟩
  exact (frontier_monotone_blocked_not_added lineG
    (setup_messages threeMsgs) 0).2.2 threeMsgs (by decide) 0 (by decide)

/-! Lemmas for C5: flag exclusivity and absorbing terminal states. -/

theorem advanceMsg_exclusive (t : ℕ) (m : Message) (h : flagsExclusive m) :
    flagsExclusive (advanceMsg t m) := by
  unfold advanceMsg
  split_ifs with hg
  · simp [flagsExclusive, hg.1, hg.2.1]
  · exact h

theorem deliverMark_exclusive (m : Message) (h : m.expired = false) :
    flagsExclusive (deliverMark m) := by
  simp [flagsExclusive, deliverMark, h]

theorem eligible_expired_false (time : ℕ) (m : Message)
    (h : eligible time m = true) : m.expired = false := by
  simp only [eligible, Bool.and_eq_true, Bool.not_eq_true'] at h
  exact h.1.2

/-- A message that is already delivered or expired passes through one
`step` completely unchanged at its position. -/
theorem step_get?_terminal (G : ℕ → List ℕ) (s : SimState) (i : ℕ)
    (m : Message) (hm : s.messages.get? i = some m)
    (ht : m.delivered = true ∨ m.expired = true) :
    (step G s).messages.get? i = some m := by
  have hi : i < s.messages.length := by
    rcases List.get?_eq_some.mp hm with ⟨h, _⟩
    exact h
  obtain ⟨hl, hp⟩ := step_messages_pointwise G s
  have hi2 : i < (step G s).messages.length := by rw [hl]; exact hi
  have hgm : s.messages.get ⟨i, hi⟩ = m := by
    rcases List.get?_eq_some.mp hm with ⟨h, he⟩
    rw [← he]
  have hadv : advanceMsg (s.current_time + 1) (s.messages.get ⟨i, hi⟩) = m := by
    rw [hgm]; exact advanceMsg_terminal _ m ht
  have helig : eligible (s.current_time + 1)
      (advanceMsg (s.current_time + 1) (s.messages.get ⟨i, hi⟩)) = false := by
    rw [hadv]
    rcases ht with h | h <;> simp [eligible, h]
  have := (hp i hi hi2).1 helig
  rw [List.get?_eq_get hi2, this, hadv]

/-- C5.  At every reachable point at most one of the flags active,
delivered, expired holds (preserved by `advance_time` and by `step` from
any state satisfying it — freshly generated messages have all flags
false), and a delivered or expired message is never modified again by
`advance_time` or by any number of further `step` calls. -/
theorem flags_exclusive_terminal_absorbing (G : ℕ → List ℕ) (s : SimState) :
    ((∀ m ∈ s.messages, flagsExclusive m) →
      (∀ m2 ∈ (advance_time s).messages, flagsExclusive m2) ∧
        ∀ m2 ∈ (step G s).messages, flagsExclusive m2) ∧
    (∀ (i : ℕ) (m : Message), s.messages.get? i = some m →
      m.delivered = true ∨ m.expired = true →
      (advance_time s).messages.get? i = some m ∧
        ∀ (n : ℕ), ((step G)^[n] s).messages.get? i = some m) := by
  constructor
  · intro hall
    constructor
    · intro m2 hm2
      rw [advance_messages] at hm2
      rcases List.mem_map.mp hm2 with ⟨m0, hm0, hm0e⟩
      exact hm0e ▸ advanceMsg_exclusive _ m0 (hall m0 hm0)
    · intro m2 hm2
      obtain ⟨hl, hp⟩ := step_messages_pointwise G s
      rcases List.mem_iff_get.mp hm2 with ⟨⟨i, hi2⟩, hget⟩
      have hi : i < s.messages.length := by rw [← hl]; exact hi2
      have hx : flagsExclusive
          (advanceMsg (s.current_time + 1) (s.messages.get ⟨i, hi⟩)) :=
        advanceMsg_exclusive _ _ (hall _ (List.get_mem _ _ _))
      rcases (hp i hi hi2).2 with h | ⟨he, h, _⟩
      · rw [← hget, h]; exact hx
      · rw [← hget, h]
        exact deliverMark_exclusive _ (eligible_expired_false _ _ he)
  · intro i m hm ht
    constructor
    · rw [advance_messages, List.get?_map, hm]
      simp [advanceMsg_terminal _ m ht]
    · intro n
      induction n with
      | zero => exact hm
      | succ n ih =>
        rw [Function.iterate_succ_apply']
        exact step_get?_terminal G _ i m ih ht

/-- A concrete already-delivered message and a state holding it, for the
C5 witness. -/
def dMsg : Message := ⟨0, 0, 1, 0, 3, false, true, false⟩

/-- A state whose only message is already delivered. -/
def delivState : SimState :=
  { messages := [dMsg], current_time := 2,
    message_states := fun _ => [0, 1],
    message_edges := fun _ => [], blocked_nodes := ∅ }

/-- Witness for C5: the delivered message of `delivState` is untouched by
`advance_time` and by three further steps over the line graph. -/
theorem flags_exclusive_terminal_absorbing_witness :
    (advance_time delivState).messages.get? 0 = some dMsg ∧
      ((step lineG)^[3] delivState).messages.get? 0 = some dMsg := by
  have h := (flags_exclusive_terminal_absorbing lineG delivState).2 0 dMsg
    (by decide) (Or.inl rfl)
  exact ⟨h.1, h.2 3⟩

/-! Lemmas for C10: a message's destination influences only the delivered
flags; frontiers, edge logs and the blocked set evolve identically. -/

theorem foldl_rel {α β : Type _} (f g : α → β → α) (R : α → α → Prop)
    (hstep : ∀ a a2 x, R a a2 → R (f a x) (g a2 x)) :
    ∀ (l : List β) (a a2 : α), R a a2 → R (l.foldl f a) (l.foldl g a2) := by
  intro l
  induction l with
  | nil => exact fun a a2 h => h
  | cons x xs ih => exact fun a a2 h => ih _ _ (hstep a a2 x h)

theorem foldl_rel₂ {α β : Type _} (Q : β → β → Prop) (R : α → α → Prop)
    (f g : α → β → α)
    (hstep : ∀ a a2 x x2, R a a2 → Q x x2 → R (f a x) (g a2 x2)) :
    ∀ {l l2 : List β}, List.Forall₂ Q l l2 → ∀ a a2, R a a2 →
      R (l.foldl f a) (l2.foldl g a2) := by
  intro l l2 hf
  induction hf with
  | nil => exact fun a a2 h => h
  | cons hq _ ih => exact fun a a2 h => ih _ _ (hstep _ _ _ _ h hq)

theorem spread_rel (G : ℕ → List ℕ) (b : Finset ℕ) (d d2 : ℕ)
    (seen : List ℕ) :
    (spreadMsg G b d seen).ns = (spreadMsg G b d2 seen).ns ∧
      (spreadMsg G b d seen).hops = (spreadMsg G b d2 seen).hops := by
  refine foldl_rel (visitNode G b d seen) (visitNode G b d2 seen)
    (fun a a2 => a.ns = a2.ns ∧ a.hops = a2.hops) ?_ seen _ _ ⟨rfl, rfl⟩
  intro a a2 node ⟨hns, hh⟩
  unfold visitNode
  split_ifs with hn
  · exact ⟨hns, hh⟩
  · refine foldl_rel (visitNeighbor b d seen node)
      (visitNeighbor b d2 seen node)
      (fun a a2 => a.ns = a2.ns ∧ a.hops = a2.hops) ?_ (G node) a a2 ⟨hns, hh⟩
    intro a3 a4 nb ⟨h3, h4⟩
    constructor
    · rw [visitNeighbor_ns, visitNeighbor_ns, h3]
    · rw [visitNeighbor_hops, visitNeighbor_hops, h4]

theorem eligible_sameExceptDest (t : ℕ) (m m2 : Message)
    (h : sameExceptDest m m2) : eligible t m2 = eligible t m := by
  obtain ⟨_, _, h3, _, h5, h6, h7⟩ := h
  simp [eligible, h3, h5, h6, h7]

theorem advanceMsg_sameExceptDest (t : ℕ) (m m2 : Message)
    (h : sameExceptDest m m2) :
    sameExceptDest (advanceMsg t m) (advanceMsg t m2) := by
  obtain ⟨h1, h2, h3, h4, h5, h6, h7⟩ := h
  unfold advanceMsg
  by_cases hg : m.delivered = false ∧ m.expired = false ∧ m.timestamp ≤ t
  · rw [if_pos hg, if_pos (by rw [h3, h6, h7]; exact hg)]
    exact ⟨h1, h2, h3, h4, rfl, h6, h7⟩
  · rw [if_neg hg, if_neg (by rw [h3, h6, h7]; exact hg)]
    exact ⟨h1, h2, h3, h4, h5, h6, h7⟩

theorem forall₂_map_advanceMsg (t : ℕ) :
    ∀ {l l2 : List Message}, List.Forall₂ sameExceptDest l l2 →
      List.Forall₂ sameExceptDest (l.map (advanceMsg t))
        (l2.map (advanceMsg t)) := by
  intro l l2 h
  induction h with
  | nil => exact List.Forall₂.nil
  | cons hq _ ih =>
    exact List.Forall₂.cons (advanceMsg_sameExceptDest _ _ _ hq) ih

theorem hitList_sameExceptDest (G : ℕ → List ℕ) (t : ℕ)
    {msgs msgs2 : List Message} (h : List.Forall₂ sameExceptDest msgs msgs2)
    (fr : ℕ → List ℕ) : hitList G t msgs2 fr = hitList G t msgs fr := by
  induction h with
  | nil => rfl
  | cons hq hrest ih =>
    rename_i m m2 rest rest2
    show hitList G t (m2 :: rest2) fr = hitList G t (m :: rest) fr
    unfold hitList
    rw [List.filter_cons, List.filter_cons, eligible_sameExceptDest t m m2 hq]
    by_cases he : eligible t m = true
    · simp only [he, if_true, List.flatMap_cons]
      rw [hq.1]
      unfold hitList at ih
      rw [ih]
    · simp only [he, Bool.false_eq_true, if_false]
      unfold hitList at ih
      rw [ih]

/-- C10.  Within one `step`, marking a message delivered does not stop or
alter that step's propagation: the destination field (the only input to
`mark_delivered`) has no influence on the frontiers, the traversed-edge
logs, the blocked set, or the clock produced by the step — two states
identical except for message destinations produce identical values of all
four, even when one run delivers mid-pass and the other does not. -/
theorem delivery_does_not_stop_propagation (G : ℕ → List ℕ)
    (s s2 : SimState) (ht : s2.current_time = s.current_time)
    (hfr : s2.message_states = s.message_states)
    (hed : s2.message_edges = s.message_edges)
    (hm : List.Forall₂ sameExceptDest s.messages s2.messages) :
    (step G s2).message_states = (step G s).message_states ∧
      (step G s2).message_edges = (step G s).message_edges ∧
      (step G s2).blocked_nodes = (step G s).blocked_nodes ∧
      (step G s2).current_time = (step G s).current_time := by
  have hadv : List.Forall₂ sameExceptDest (advance_time s).messages
      (advance_time s2).messages := by
    rw [advance_messages, advance_messages, ht]
    exact forall₂_map_advanceMsg _ hm
  have hblocked : stepBlocked G s2 = stepBlocked G s := by
    unfold stepBlocked blockedSet
    rw [advance_current_time, advance_current_time, ht, advance_states,
      advance_states, hfr, hitList_sameExceptDest G _ hadv]
  have hg : stepMsg G (stepBlocked G s2) ((advance_time s2).current_time) =
      stepMsg G (stepBlocked G s) ((advance_time s).current_time) := by
    rw [hblocked, advance_current_time, advance_current_time, ht]
  have hstep : ∀ (a a2 : PassAcc) (x x2 : Message),
      (a2.fr = a.fr ∧ a2.ed = a.ed) → sameExceptDest x x2 →
      ((stepMsg G (stepBlocked G s) ((advance_time s).current_time) a2 x2).fr
          = (stepMsg G (stepBlocked G s)
              ((advance_time s).current_time) a x).fr ∧
        (stepMsg G (stepBlocked G s) ((advance_time s).current_time) a2 x2).ed
          = (stepMsg G (stepBlocked G s)
              ((advance_time s).current_time) a x).ed) := by
    intro a a2 x x2 hR hq
    obtain ⟨h1, h2⟩ := hR
    unfold stepMsg
    rw [eligible_sameExceptDest _ x x2 hq, hq.1, h1, h2]
    split_ifs with he
    · constructor
      · funext j
        by_cases hj : j = x.message_id
        · simp only [hj, if_pos rfl]
          rw [(spread_rel G (stepBlocked G s) x2.destination x.destination
            (a.fr x.message_id)).1]
        · simp only [if_neg hj]
      · funext j
        by_cases hj : j = x.message_id
        · simp only [hj, if_pos rfl]
          rw [(spread_rel G (stepBlocked G s) x2.destination x.destination
            (a.fr x.message_id)).2]
        · simp only [if_neg hj]
    · exact ⟨rfl, rfl⟩
  have hpass : (passResult G s2).fr = (passResult G s).fr ∧
      (passResult G s2).ed = (passResult G s).ed := by
    have h2 : passResult G s2 = (advance_time s2).messages.foldl
        (stepMsg G (stepBlocked G s) ((advance_time s).current_time))
        ⟨[], s.message_states, s.message_edges⟩ := by
      unfold passResult
      rw [hg, advance_states, hfr, advance_edges, hed]
    have h3 : passResult G s = (advance_time s).messages.foldl
        (stepMsg G (stepBlocked G s) ((advance_time s).current_time))
        ⟨[], s.message_states, s.message_edges⟩ := by
      unfold passResult
      rw [advance_states, advance_edges]
    rw [h2, h3]
    exact foldl_rel₂ sameExceptDest (fun a a2 => a2.fr = a.fr ∧ a2.ed = a.ed)
      (stepMsg G (stepBlocked G s) ((advance_time s).current_time))
      (stepMsg G (stepBlocked G s) ((advance_time s).current_time))
      hstep hadv _ _ ⟨rfl, rfl⟩
  refine ⟨?_, ?_, ?_, ?_⟩
  · rw [step_states_eq, step_states_eq]
    exact hpass.1
  · rw [step_edges_eq, step_edges_eq]
    exact hpass.2
  · rw [step_blocked_eq, step_blocked_eq]
    exact hblocked
  · show (advance_time s2).current_time = (advance_time s).current_time
    rw [advance_current_time, advance_current_time, ht]

/-- A two-node graph 0 – 1. -/
def twoG : ℕ → List ℕ := fun u => ([[1], [0]] : List (List ℕ)).getD u []

/-- One active message from node 0 to node 1 (deliverable in one step). -/
def sDeliver : SimState :=
  { messages := [⟨0, 0, 1, 0, 3, true, false, false⟩], current_time := 0,
    message_states := fun _ => [0], message_edges := fun _ => [],
    blocked_nodes := ∅ }

/-- The same state except the destination is the unreachable node 5. -/
def sNoDeliver : SimState :=
  { messages := [⟨0, 0, 5, 0, 3, true, false, false⟩], current_time := 0,
    message_states := fun _ => [0], message_edges := fun _ => [],
    blocked_nodes := ∅ }

/-- Witness for C10: over `twoG`, the run that delivers mid-pass and the
run whose destination is unreachable produce the same frontiers, yet one
ends delivered and the other does not. -/
theorem delivery_does_not_stop_propagation_witness :
    (step twoG sNoDeliver).message_states =
        (step twoG sDeliver).message_states ∧
      (step twoG sDeliver).messages.map Message.delivered = [true] ∧
      (step twoG sNoDeliver).messages.map Message.delivered = [false] := by
  refine ⟨(delivery_does_not_stop_propagation twoG sDeliver sNoDeliver
    rfl rfl rfl ?_).1, by decide, by decide⟩
  exact List.Forall₂.cons ⟨rfl, rfl, rfl, rfl, rfl, rfl, rfl⟩ List.Forall₂.nil

/-! Lemmas for C2: the code's hit tally counts exactly the distinct
(message index, sender) transmission attempts, and blocked nodes neither
receive, get frontier entries, get deliveries, nor forward. -/

theorem advanceMsg_delivered (t : ℕ) (m : Message) :
    (advanceMsg t m).delivered = m.delivered := by
  unfold advanceMsg
  split_ifs <;> rfl

theorem advanceMsg_destination (t : ℕ) (m : Message) :
    (advanceMsg t m).destination = m.destination := by
  unfold advanceMsg
  split_ifs <;> rfl

/-- Value of the count of `v` in one `(G node).filter (· ∉ T)` block, for
duplicate-free adjacency lists. -/
theorem count_filter_block (G : ℕ → List ℕ) (hG : ∀ u, (G u).Nodup)
    (T : List ℕ) (v a : ℕ) :
    List.count v ((G a).filter fun nb => decide (nb ∉ T)) =
      if (decide (v ∈ G a) && decide (v ∉ T)) = true then 1 else 0 := by
  by_cases hvT : v ∉ T
  · rw [List.count_filter (by simpa using hvT)]
    by_cases hvG : v ∈ G a
    · rw [List.count_eq_one_of_mem (hG a) hvG]
      simp [hvG, hvT]
    · rw [List.count_eq_zero_of_not_mem hvG]
      simp [hvG]
  · have hnot : v ∉ (G a).filter fun nb => decide (nb ∉ T) := by
      intro hmem
      rcases List.mem_filter.mp hmem with ⟨_, hp⟩
      simp at hp
      exact hp (by simpa using not_not.mp hvT)
    rw [List.count_eq_zero_of_not_mem hnot]
    simp at hvT
    simp [hvT]

/-- Summing the per-sender counts over a frontier equals the number of
senders that have `v` as a fresh neighbor. -/
theorem count_hits_gen (G : ℕ → List ℕ) (hG : ∀ u, (G u).Nodup)
    (T : List ℕ) (v : ℕ) :
    ∀ S : List ℕ,
      ((S.map fun node =>
          List.count v ((G node).filter fun nb => decide (nb ∉ T))).sum) =
        (S.filter fun u => decide (v ∈ G u) && decide (v ∉ T)).length := by
  intro S
  induction S with
  | nil => rfl
  | cons a S ih =>
    rw [List.map_cons, List.sum_cons, List.filter_cons,
      count_filter_block G hG T v a]
    by_cases h : (decide (v ∈ G a) && decide (v ∉ T)) = true
    · simp only [h, if_true, List.length_cons]
      omega
    · simp only [h, Bool.false_eq_true, if_false]
      rw [ih]
      omega

/-- The enumerate-then-filter projection: filtering `enum` by a predicate
on the entry and projecting to the entry recovers the plain filter. -/
theorem enumFrom_filter_snd (q : Message → Bool) :
    ∀ (msgs : List Message) (n : ℕ),
      ((List.enumFrom n msgs).filter fun p => q p.2).map Prod.snd =
        msgs.filter q := by
  intro msgs
  induction msgs with
  | nil => intro n; rfl
  | cons m rest ih =>
    intro n
    rw [List.enumFrom_cons, List.filter_cons, List.filter_cons]
    by_cases h : q m = true
    · simp only [h, if_true, List.map_cons]
      rw [ih]
    · simp only [h, Bool.false_eq_true, if_false]
      exact ih (n + 1)

/-- Specialisation of `enumFrom_filter_snd` to `List.enum`. -/
theorem enum_filter_snd (q : Message → Bool) (msgs : List Message) :
    (msgs.enum.filter fun p => q p.2).map Prod.snd = msgs.filter q :=
  enumFrom_filter_snd q msgs 0

/-- The code's tally of hits on `v` equals the number of distinct
(message index, sender) attempts on `v`. -/
theorem count_hitList (G : ℕ → List ℕ) (hG : ∀ u, (G u).Nodup) (t : ℕ)
    (msgs : List Message) (fr : ℕ → List ℕ) (v : ℕ) :
    (hitList G t msgs fr).count v = (attemptPairs G t msgs fr v).length := by
  unfold hitList attemptPairs
  rw [List.count_flatMap, List.length_flatMap]
  have hR : (List.map
      (List.length ∘ fun p : ℕ × Message =>
        ((fr p.2.message_id).filter fun u =>
            decide (v ∈ G u) && decide (v ∉ fr p.2.message_id)).map
          fun u => (p.1, u))
      (msgs.enum.filter fun p => eligible t p.2)).sum =
      (List.map
        ((fun m : Message =>
            ((fr m.message_id).filter fun u =>
              decide (v ∈ G u) && decide (v ∉ fr m.message_id)).length) ∘
          Prod.snd)
        (msgs.enum.filter fun p => eligible t p.2)).sum := by
    congr 1
    apply List.map_congr_left
    intro p _
    simp [Function.comp, List.length_map]
  have hS : (List.map
      ((fun m : Message =>
          ((fr m.message_id).filter fun u =>
            decide (v ∈ G u) && decide (v ∉ fr m.message_id)).length) ∘
        Prod.snd)
      (msgs.enum.filter fun p => eligible t p.2)).sum =
      (List.map
        (fun m : Message =>
          ((fr m.message_id).filter fun u =>
            decide (v ∈ G u) && decide (v ∉ fr m.message_id)).length)
        (msgs.filter (eligible t))).sum := by
    rw [← enum_filter_snd (eligible t) msgs, ← List.map_map]
  rw [hR, hS]
  congr 1
  apply List.map_congr_left
  intro m _
  show List.count v ((fr m.message_id).flatMap fun node =>
      (G node).filter fun nb => decide (nb ∉ fr m.message_id)) = _
  rw [List.count_flatMap]
  exact count_hits_gen G hG (fr m.message_id) v (fr m.message_id)

theorem mem_blockedSet_iff (G : ℕ → List ℕ) (t : ℕ) (msgs : List Message)
    (fr : ℕ → List ℕ) (v : ℕ) :
    v ∈ blockedSet G t msgs fr ↔ 1 < (hitList G t msgs fr).count v := by
  unfold blockedSet
  rw [Finset.mem_filter, List.mem_toFinset]
  constructor
  · exact fun h => by simpa using h.2
  · intro h
    refine ⟨List.count_pos_iff.mp (by omega), by simpa using h⟩

/-- The attempt list has no duplicates: its entries are distinct
(message index, sender) pairs. -/
theorem attemptPairs_nodup (G : ℕ → List ℕ) (t : ℕ) (msgs : List Message)
    (fr : ℕ → List ℕ) (v : ℕ) (hfr : ∀ k, (fr k).Nodup) :
    (attemptPairs G t msgs fr v).Nodup := by
  unfold attemptPairs
  rw [List.nodup_flatMap]
  constructor
  · intro p _
    refine List.Nodup.map ?_ ((hfr p.2.message_id).filter _)
    intro a b hab
    simpa using hab
  · have h0 : List.Pairwise (· < ·) (msgs.enum.map Prod.fst) := by
      rw [List.enum_map_fst]
      exact List.pairwise_lt_range _
    have h1 : msgs.enum.Pairwise fun a b => a.1 < b.1 :=
      (List.pairwise_map).mp h0
    have h2 : (msgs.enum.filter fun p => eligible t p.2).Pairwise
        fun a b => a.1 < b.1 :=
      List.Pairwise.sublist (List.filter_sublist _) h1
    refine h2.imp ?_
    intro a b hab x hxa hxb
    rcases List.mem_map.mp hxa with ⟨u, _, hu⟩
    rcases List.mem_map.mp hxb with ⟨w, _, hw⟩
    rw [← hu] at hw
    have : a.1 = b.1 := (Prod.mk.injEq _ _ _ _).mp hw.symm |>.1
    omega

/-- C2.  A node is blocked for a step exactly when more than one distinct
(message, sender) transmission attempt would land on it that step (the
attempt list is duplicate-free), and a blocked node: is never newly added
to any frontier this step, has no message delivered to it this step, and
neither receives nor sends any logged hop this step. -/
theorem collision_blocking_step (G : ℕ → List ℕ) (s : SimState)
    (hG : ∀ u, (G u).Nodup) (hfr : ∀ k, (s.message_states k).Nodup) :
    (∀ v, v ∈ (step G s).blocked_nodes ↔
        1 < (attemptPairs G (s.current_time + 1) (advance_time s).messages
          s.message_states v).length) ∧
      (∀ v, (attemptPairs G (s.current_time + 1) (advance_time s).messages
          s.message_states v).Nodup) ∧
      (∀ v ∈ (step G s).blocked_nodes, ∀ k,
        v ∈ (step G s).message_states k → v ∈ s.message_states k) ∧
      (∀ v ∈ (step G s).blocked_nodes, ∀ (i : ℕ) (m m2 : Message),
        s.messages.get? i = some m → (step G s).messages.get? i = some m2 →
        m.delivered = false → m2.delivered = true → m.destination ≠ v) ∧
      (∀ k, ∃ tail,
        (step G s).message_edges k = s.message_edges k ++ tail ∧
          ∀ e ∈ tail, e.1 ∉ (step G s).blocked_nodes ∧
            e.2 ∉ (step G s).blocked_nodes) := by
  refine ⟨?_, ?_, ?_, ?_, ?_⟩
  · intro v
    rw [step_blocked_eq]
    show v ∈ blockedSet G (advance_time s).current_time
        (advance_time s).messages (advance_time s).message_states ↔ _
    rw [mem_blockedSet_iff, count_hitList G hG]
    exact Iff.rfl
  · intro v
    exact attemptPairs_nodup G _ _ _ v hfr
  · intro v hv k hvk
    rw [step_states_eq] at hvk
    have := pass_fr_new_unblocked G (stepBlocked G s)
      (advance_time s).current_time s.message_states
      (advance_time s).messages
      ⟨[], (advance_time s).message_states, (advance_time s).message_edges⟩
      (fun _ _ h2 => Or.inl h2) k v hvk
    rcases this with h | h
    · exact h
    · rw [step_blocked_eq] at hv
      exact absurd hv h
  · intro v hv i m m2 hm hm2 hdel hdel2
    have hi : i < s.messages.length := by
      rcases List.get?_eq_some.mp hm with ⟨h, _⟩
      exact h
    obtain ⟨hl, hp⟩ := step_messages_pointwise G s
    have hi2 : i < (step G s).messages.length := by rw [hl]; exact hi
    have hgm : s.messages.get ⟨i, hi⟩ = m := by
      rcases List.get?_eq_some.mp hm with ⟨_, he⟩
      rw [← he]
    have hgm2 : (step G s).messages.get ⟨i, hi2⟩ = m2 := by
      rw [List.get?_eq_get hi2] at hm2
      exact Option.some.inj hm2
    rcases (hp i hi hi2).2 with h | ⟨_, h, hdest⟩
    · rw [hgm2, hgm] at h
      rw [h, advanceMsg_delivered, hdel] at hdel2
      exact absurd hdel2 (by simp)
    · rw [hgm] at hdest
      rw [advanceMsg_destination] at hdest
      intro hc
      rw [hc] at hdest
      exact hdest hv
  · intro k
    rw [step_edges_eq, step_blocked_eq]
    exact pass_ed_appends G (stepBlocked G s) (advance_time s).current_time
      s.message_edges (advance_time s).messages
      ⟨[], (advance_time s).message_states, (advance_time s).message_edges⟩
      (fun k2 => ⟨[], by simp [advance_edges], by simp⟩) k

/-- Nodup of the concrete line graph's adjacency lists. -/
theorem lineG_nodup : ∀ u, (lineG u).Nodup := by
  intro u
  match u with
  | 0 => decide
  | 1 => decide
  | 2 => decide
  | 3 => decide
  | n + 4 =>
    show (([[1], [0, 2], [1], []] : List (List ℕ)).getD (n + 4) []).Nodup
    rw [List.getD_eq_default]
    · exact List.nodup_nil
    · simp

/-- Witness for C2 on the colliding line-graph run: node 1 is blocked and
the attempt list at node 1 has exactly the two distinct attempts
(message 1 from node 0, message 2 from node 2). -/
theorem collision_blocking_step_witness :
    (1 ∈ (step lineG (setup_messages threeMsgs)).blocked_nodes ↔
        1 < (attemptPairs lineG ((setup_messages threeMsgs).current_time + 1)
          (advance_time (setup_messages threeMsgs)).messages
          (setup_messages threeMsgs).message_states 1).length) ∧
      (attemptPairs lineG ((setup_messages threeMsgs).current_time + 1)
        (advance_time (setup_messages threeMsgs)).messages
        (setup_messages threeMsgs).message_states 1) = [(1, 0), (2, 2)] := by
  refine ⟨(collision_blocking_step lineG (setup_messages threeMsgs)
    lineG_nodup ?_).1 1, by decide⟩
  intro k
  by_cases h0 : k = 0
  · rw [h0]; decide
  · by_cases h1 : k = 1
    · rw [h1]; decide
    · by_cases h2 : k = 2
      · rw [h2]; decide
      · have hne : ∀ m ∈ threeMsgs, m.message_id ≠ k := by
          intro m hm
          simp only [threeMsgs, List.mem_cons, List.not_mem_nil,
            or_false] at hm
          rcases hm with rfl | rfl | rfl
          · exact fun heq => h0 heq.symm
          · exact fun heq => h1 heq.symm
          · exact fun heq => h2 heq.symm
        have hk : (setup_messages threeMsgs).message_states k = [] := by
          show (threeMsgs.foldl
            (fun f m => fun j => if j = m.message_id then [m.source] else f j)
            (fun _ => ([] : List ℕ))) k = []
          exact setup_fold_ne threeMsgs _ k hne
        rw [hk]
        exact List.nodup_nil

/-! Lemmas for C9 and C4: the pair-generation loop. -/

/-- A successful inner loop returns a proper, unused pair drawn from the
choice streams. -/
theorem findPair_spec (cs cd : ℕ → ℕ) (used : List (ℕ × ℕ)) :
    ∀ (fuel t : ℕ) (p : ℕ × ℕ) (t2 : ℕ),
      findPair used cs cd fuel t = some (p, t2) →
      p.1 ≠ p.2 ∧ p ∉ used ∧ ∃ n, p = (cs n, cd n) := by
  intro fuel
  induction fuel with
  | zero => intro t p t2 h; exact absurd h (by simp [findPair])
  | succ fuel ih =>
    intro t p t2 h
    unfold findPair at h
    split_ifs at h with hc
    · have h3 := Option.some.inj h
      have hp : (cs t, cd t) = p := congrArg Prod.fst h3
      refine ⟨?_, ?_, ⟨t, hp.symm⟩⟩
      · rw [← hp]; exact hc.1
      · rw [← hp]; exact hc.2
    · exact ih (t + 1) p t2 h

/-- Structure of a successful `generateAux` run: it appends exactly `rem`
messages with consecutive ids, proper pairs, the mode's release
timestamps, fresh flags, and pairwise fresh (source, destination) pairs. -/
theorem generateAux_spec (cs cd cttl : ℕ → ℕ) (simult : Bool) (fuel : ℕ) :
    ∀ (rem i t : ℕ) (used : List (ℕ × ℕ)) (acc msgs : List Message),
      generateAux cs cd cttl simult fuel rem i t used acc = some msgs →
      ∃ tail, msgs = acc ++ tail ∧ tail.length = rem ∧
        (∀ (j : ℕ) (hj : j < tail.length),
          (tail.get ⟨j, hj⟩).message_id = i + j ∧
          (tail.get ⟨j, hj⟩).source ≠ (tail.get ⟨j, hj⟩).destination ∧
          (tail.get ⟨j, hj⟩).timestamp = (if simult then 0 else i + j) ∧
          (tail.get ⟨j, hj⟩).active = false ∧
          (tail.get ⟨j, hj⟩).delivered = false ∧
          (tail.get ⟨j, hj⟩).expired = false) ∧
        (used.Nodup →
          (used ++ tail.map fun m => (m.source, m.destination)).Nodup) := by
  intro rem
  induction rem with
  | zero =>
    intro i t used acc msgs h
    unfold generateAux at h
    refine ⟨[], by simpa using (Option.some.inj h).symm, rfl, ?_, ?_⟩
    · intro j hj; simp at hj
    · intro hu; simpa using hu
  | succ rem ih =>
    intro i t used acc msgs h
    unfold generateAux at h
    cases hfp : findPair used cs cd fuel t with
    | none => rw [hfp] at h; exact absurd h (by simp)
    | some pt =>
      rw [hfp] at h
      obtain ⟨p, t2⟩ := pt
      obtain ⟨hne, hnu, n, hpn⟩ := findPair_spec cs cd used fuel t p t2 hfp
      obtain ⟨tail, hm, hlen, hprops, hnodup⟩ :=
        ih (i + 1) t2 (used ++ [p]) _ msgs h
      refine ⟨⟨i, p.1, p.2, if simult then 0 else i, cttl i,
        false, false, false⟩ :: tail, ?_, by simp [hlen], ?_, ?_⟩
      · rw [hm, List.append_assoc]
        rfl
      · intro j hj
        match j with
        | 0 => exact ⟨by simp, hne, by simp, rfl, rfl, rfl⟩
        | Nat.succ j =>
          have hj2 : j < tail.length := by simpa using hj
          obtain ⟨q1, q2, q3, q4, q5, q6⟩ := hprops j hj2
          refine ⟨?_, by simpa using q2, ?_, by simpa using q4,
            by simpa using q5, by simpa using q6⟩
          · show (tail.get ⟨j, hj2⟩).message_id = i + (j + 1)
            rw [q1]; omega
          · show (tail.get ⟨j, hj2⟩).timestamp = _
            rw [q3]
            by_cases hs : simult = true
            · rw [if_pos hs, if_pos hs]
            · rw [if_neg hs, if_neg hs]
              omega
      · intro hu
        have hu2 : (used ++ [p]).Nodup := by
          rw [List.nodup_append]
          exact ⟨hu, List.nodup_singleton p,
            by simpa [List.disjoint_singleton] using hnu⟩
        have h2 := hnodup hu2
        have hmap : ((⟨i, p.1, p.2, if simult then 0 else i, cttl i,
            false, false, false⟩ : Message) :: tail).map
              (fun m => (m.source, m.destination)) =
            p :: tail.map fun m => (m.source, m.destination) := by
          simp
        rw [hmap]
        rw [List.append_assoc, List.singleton_append] at h2
        exact h2

/-- Pending messages become active exactly once the clock (which advances
by one per call) has reached their release timestamp. -/
theorem advance_iter_fresh :
    ∀ (k : ℕ) (s : SimState) (i : ℕ) (m : Message),
      s.messages.get? i = some m → m.active = false → m.delivered = false →
      m.expired = false →
      ((advance_time)^[k] s).messages.get? i =
        some { m with
          active := decide (1 ≤ k ∧ m.timestamp ≤ s.current_time + k) } ∧
      ((advance_time)^[k] s).current_time = s.current_time + k := by
  intro k
  induction k with
  | zero =>
    intro s i m hm ha _ _
    refine ⟨?_, rfl⟩
    simp only [Function.iterate_zero, id]
    rw [hm]
    have hd : decide (1 ≤ 0 ∧ m.timestamp ≤ s.current_time + 0) = false := by
      simp
    rw [hd, ← ha]
  | succ k ih =>
    intro s i m hm ha hd he
    obtain ⟨h1, h2⟩ := ih s i m hm ha hd he
    rw [Function.iterate_succ_apply']
    constructor
    · rw [advance_messages, List.get?_map, h1]
      simp only [Option.map_some']
      unfold advanceMsg
      rw [h2]
      by_cases hts : m.timestamp ≤ s.current_time + k + 1
      · rw [if_pos ⟨hd, he, hts⟩]
        have : decide (1 ≤ k + 1 ∧ m.timestamp ≤ s.current_time + (k + 1)) =
            true := by
          simp only [decide_eq_true_eq]
          omega
        rw [this]
      · rw [if_neg (fun hg => hts hg.2.2)]
        have e1 : decide (1 ≤ k ∧ m.timestamp ≤ s.current_time + k) =
            false := by
          simp only [decide_eq_false_iff_not]
          omega
        have e2 : decide (1 ≤ k + 1 ∧ m.timestamp ≤ s.current_time + (k + 1)) =
            false := by
          simp only [decide_eq_false_iff_not]
          omega
        rw [e1, e2]
    · rw [advance_current_time, h2]
      omega

/-- C9.  Whenever `generate_random_pairs` returns, it returns exactly
`count` messages with ids 0,…,count−1, source ≠ destination in each, all
ordered (source, destination) pairs pairwise distinct, release timestamp 0
in simultaneous mode and i for message i otherwise, all flags initially
false; and under repeated `advance_time` a generated message is active
exactly once at least one call has happened and the clock has reached its
release timestamp (so activation is idempotent). -/
theorem generation_contract (cs cd cttl : ℕ → ℕ) (simult : Bool)
    (fuel num : ℕ) (msgs : List Message)
    (h : generate_random_pairs num cs cd cttl simult fuel = some msgs) :
    msgs.length = num ∧
      (∀ (i : ℕ) (hi : i < msgs.length),
        (msgs.get ⟨i, hi⟩).message_id = i ∧
        (msgs.get ⟨i, hi⟩).source ≠ (msgs.get ⟨i, hi⟩).destination ∧
        (msgs.get ⟨i, hi⟩).timestamp = (if simult then 0 else i) ∧
        (msgs.get ⟨i, hi⟩).active = false ∧
        (msgs.get ⟨i, hi⟩).delivered = false ∧
        (msgs.get ⟨i, hi⟩).expired = false) ∧
      (∀ (i j : ℕ) (hi : i < msgs.length) (hj : j < msgs.length), i ≠ j →
        ((msgs.get ⟨i, hi⟩).source, (msgs.get ⟨i, hi⟩).destination) ≠
          ((msgs.get ⟨j, hj⟩).source, (msgs.get ⟨j, hj⟩).destination)) ∧
      (∀ (fr0 : ℕ → List ℕ) (ed0 : ℕ → List (ℕ × ℕ)) (k i : ℕ)
        (hi : i < msgs.length),
        ((advance_time)^[k] ⟨msgs, 0, fr0, ed0, ∅⟩).messages.get? i =
          some { msgs.get ⟨i, hi⟩ with
            active :=
              decide (1 ≤ k ∧ (msgs.get ⟨i, hi⟩).timestamp ≤ k) }) := by
  obtain ⟨tail, hm, hlen, hprops, hnodup⟩ :=
    generateAux_spec cs cd cttl simult fuel num 0 0 [] [] msgs h
  have hmt : msgs = tail := by simpa using hm
  subst hmt
  have hprops2 : ∀ (i : ℕ) (hi : i < msgs.length),
      (msgs.get ⟨i, hi⟩).message_id = i ∧
      (msgs.get ⟨i, hi⟩).source ≠ (msgs.get ⟨i, hi⟩).destination ∧
      (msgs.get ⟨i, hi⟩).timestamp = (if simult then 0 else i) ∧
      (msgs.get ⟨i, hi⟩).active = false ∧
      (msgs.get ⟨i, hi⟩).delivered = false ∧
      (msgs.get ⟨i, hi⟩).expired = false := by
    intro i hi
    have := hprops i hi
    simpa using this
  refine ⟨hlen, hprops2, ?_, ?_⟩
  · have hnd : (msgs.map fun m => (m.source, m.destination)).Nodup := by
      simpa using hnodup List.nodup_nil
    intro i j hi hj hij
    have hgi : (msgs.map fun m => (m.source, m.destination)).get
        ⟨i, by simpa using hi⟩ =
        ((msgs.get ⟨i, hi⟩).source, (msgs.get ⟨i, hi⟩).destination) := by
      simp [List.get_eq_getElem, List.getElem_map]
    have hgj : (msgs.map fun m => (m.source, m.destination)).get
        ⟨j, by simpa using hj⟩ =
        ((msgs.get ⟨j, hj⟩).source, (msgs.get ⟨j, hj⟩).destination) := by
      simp [List.get_eq_getElem, List.getElem_map]
    intro hc
    have hfin : (⟨i, by simpa using hi⟩ :
        Fin (msgs.map fun m => (m.source, m.destination)).length) =
        ⟨j, by simpa using hj⟩ := by
      apply (List.Nodup.get_inj_iff hnd).mp
      rw [hgi, hgj]
      exact hc
    exact hij (by simpa using hfin)
  · intro fr0 ed0 k i hi
    have hf := hprops2 i hi
    have := (advance_iter_fresh k ⟨msgs, 0, fr0, ed0, ∅⟩ i
      (msgs.get ⟨i, hi⟩) (by rw [List.get?_eq_get hi]) hf.2.2.2.1
      hf.2.2.2.2.1 hf.2.2.2.2.2).1
    simpa using this

/-- Streams producing the two proper pairs (0, 1) and (1, 0)
alternately. -/
def altStream : ℕ → ℕ := fun t => t % 2

/-- The complementary alternating stream. -/
def altStream2 : ℕ → ℕ := fun t => (t + 1) % 2

/-- Witness for C9: a concrete two-message generation run over node ids
{0, 1} satisfies the contract (length, ids, pair distinctness checked by
applying the theorem at the concrete output). -/
theorem generation_contract_witness :
    (generate_random_pairs 2 altStream altStream2 (fun _ => 4) true 5 =
        some [⟨0, 0, 1, 0, 4, false, false, false⟩,
          ⟨1, 1, 0, 0, 4, false, false, false⟩]) ∧
      ([⟨0, 0, 1, 0, 4, false, false, false⟩,
          ⟨1, 1, 0, 0, 4, false, false, false⟩] :
        List Message).length = 2 := by
  refine ⟨by decide, ?_⟩
  exact (generation_contract altStream altStream2 (fun _ => 4) true 5 2 _
    (by decide)).1

/-- The inner loop can never exit when every candidate the streams can
produce is improper or already used. -/
theorem findPair_none_of_no_candidate (cs cd : ℕ → ℕ)
    (used : List (ℕ × ℕ))
    (h : ∀ n, cs n ≠ cd n → (cs n, cd n) ∈ used) :
    ∀ fuel t, findPair used cs cd fuel t = none := by
  intro fuel
  induction fuel with
  | zero => intro t; rfl
  | succ fuel ih =>
    intro t
    unfold findPair
    rw [if_neg]
    · exact ih (t + 1)
    · intro hc
      exact hc.2 (h t hc.1)

/-- C4.  The spec demands that an impossible generation request fail fast
with a descriptive error; the code instead spins forever in `while True`.
With a single node (every draw is 7) one message can never be generated,
and with two nodes {0, 1} a third distinct pair can never be found: in both
cases the modelled loop returns `none` for every fuel bound, i.e. the
Python loop never exits. -/
theorem generation_loops_forever :
    (∀ (cs cd cttl : ℕ → ℕ) (simult : Bool) (fuel : ℕ),
        (∀ n, cs n ∈ ([7] : List ℕ)) → (∀ n, cd n ∈ ([7] : List ℕ)) →
        generate_random_pairs 1 cs cd cttl simult fuel = none) ∧
      (∀ (cs cd cttl : ℕ → ℕ) (simult : Bool) (fuel : ℕ),
        (∀ n, cs n ∈ ([0, 1] : List ℕ)) → (∀ n, cd n ∈ ([0, 1] : List ℕ)) →
        generate_random_pairs 3 cs cd cttl simult fuel = none) := by
  constructor
  · intro cs cd cttl simult fuel h1 h2
    have hall : ∀ n, cs n ≠ cd n → (cs n, cd n) ∈ ([] : List (ℕ × ℕ)) := by
      intro n hne
      have e1 : cs n = 7 := by simpa using h1 n
      have e2 : cd n = 7 := by simpa using h2 n
      exact absurd (e1.trans e2.symm) hne
    show generateAux cs cd cttl simult fuel 1 0 0 [] [] = none
    unfold generateAux
    rw [findPair_none_of_no_candidate cs cd [] hall fuel 0]
  · intro cs cd cttl simult fuel h1 h2
    have hpair : ∀ n, cs n ≠ cd n →
        (cs n, cd n) = (0, 1) ∨ (cs n, cd n) = (1, 0) := by
      intro n hne
      have e1 : cs n = 0 ∨ cs n = 1 := by simpa using h1 n
      have e2 : cd n = 0 ∨ cd n = 1 := by simpa using h2 n
      rcases e1 with e1 | e1 <;> rcases e2 with e2 | e2 <;>
        rw [e1, e2] at hne ⊢ <;> simp_all
    show generateAux cs cd cttl simult fuel 3 0 0 [] [] = none
    unfold generateAux
    cases hf1 : findPair [] cs cd fuel 0 with
    | none => rfl
    | some pt1 =>
      obtain ⟨p1, t1⟩ := pt1
      obtain ⟨hne1, _, n1, hp1⟩ := findPair_spec cs cd [] fuel 0 p1 t1 hf1
      have hp1m : p1 = (0, 1) ∨ p1 = (1, 0) := by
        rw [hp1]
        exact hpair n1 (by rw [hp1] at hne1; exact hne1)
      show generateAux cs cd cttl simult fuel 2 1 t1 ([] ++ [p1]) _ = none
      unfold generateAux
      cases hf2 : findPair ([] ++ [p1]) cs cd fuel t1 with
      | none => rfl
      | some pt2 =>
        obtain ⟨p2, t2⟩ := pt2
        obtain ⟨hne2, hnu2, n2, hp2⟩ :=
          findPair_spec cs cd ([] ++ [p1]) fuel t1 p2 t2 hf2
        have hp2m : p2 = (0, 1) ∨ p2 = (1, 0) := by
          rw [hp2]
          exact hpair n2 (by rw [hp2] at hne2; exact hne2)
        have hp12 : p2 ≠ p1 := by
          intro hc
          exact hnu2 (by rw [hc]; simp)
        show generateAux cs cd cttl simult fuel 1 2 t2
          (([] ++ [p1]) ++ [p2]) _ = none
        unfold generateAux
        rw [findPair_none_of_no_candidate cs cd (([] ++ [p1]) ++ [p2])
          ?_ fuel t2]
        intro n hne
        rcases hpair n hne with h | h <;>
          rcases hp1m with q1 | q1 <;> rcases hp2m with q2 | q2 <;>
            simp_all

/-- Witness for C4: both impossible requests fail for every fuel at the
concrete constant and alternating streams. -/
theorem generation_loops_forever_witness :
    generate_random_pairs 1 (fun _ => 7) (fun _ => 7) (fun _ => 4)
        true 6 = none ∧
      generate_random_pairs 3 altStream altStream2 (fun _ => 4) true 6 =
        none := by
  constructor
  · exact generation_loops_forever.1 (fun _ => 7) (fun _ => 7) (fun _ => 4)
      true 6 (fun n => by simp) (fun n => by simp)
  · exact generation_loops_forever.2 altStream altStream2 (fun _ => 4)
      true 6 (fun n => by simp [altStream, Nat.mod_two_eq_zero_or_one])
      (fun n => by simp [altStream2, Nat.mod_two_eq_zero_or_one])

/-! Lemmas for C6: the adjacency graph built by `_create_edges`. -/

theorem nodeDist_comm (p q : ℝ × ℝ) : nodeDist p q = nodeDist q p := by
  unfold nodeDist hypot
  congr 1
  ring

theorem mem_create_edges (ps : List (ℝ × ℝ)) (r : ℝ) (a b : ℕ) :
    (a, b) ∈ create_edges ps r ↔
      a < ps.length ∧ b < ps.length ∧ a ≠ b ∧
        nodeDist (ps.getD a (0, 0)) (ps.getD b (0, 0)) ≤ r := by
  unfold create_edges
  simp only [List.mem_flatMap, List.mem_map, List.mem_filter, List.mem_range,
    Bool.and_eq_true, decide_eq_true_eq, Prod.mk.injEq]
  constructor
  · rintro ⟨x, hx, y, ⟨hy, hxy, hd⟩, hxa, hyb⟩
    subst hxa
    subst hyb
    exact ⟨hx, hy, hxy, hd⟩
  · rintro ⟨ha, hb, hab, hd⟩
    exact ⟨a, ha, b, ⟨hb, hab, hd⟩, rfl, rfl⟩

/-- C6.  An edge (i, j) is present in the graph built by `_create_edges`
iff both ids are nodes, i ≠ j and the Euclidean distance is at most the
communication radius; the adjacency is symmetric and has no self-loops. -/
theorem edges_iff_close_symmetric (ps : List (ℝ × ℝ)) (r : ℝ) (i j : ℕ) :
    (adjacent (create_edges ps r) i j ↔
        i < ps.length ∧ j < ps.length ∧ i ≠ j ∧
          nodeDist (ps.getD i (0, 0)) (ps.getD j (0, 0)) ≤ r) ∧
      (adjacent (create_edges ps r) i j ↔
        adjacent (create_edges ps r) j i) ∧
      ¬adjacent (create_edges ps r) i i := by
  have hiff : ∀ a b, adjacent (create_edges ps r) a b ↔
      (a < ps.length ∧ b < ps.length ∧ a ≠ b ∧
        nodeDist (ps.getD a (0, 0)) (ps.getD b (0, 0)) ≤ r) := by
    intro a b
    unfold adjacent
    rw [mem_create_edges, mem_create_edges]
    constructor
    · rintro (⟨h1, h2, h3, h4⟩ | ⟨h1, h2, h3, h4⟩)
      · exact ⟨h1, h2, h3, h4⟩
      · exact ⟨h2, h1, h3.symm, by rw [nodeDist_comm]; exact h4⟩
    · exact fun h => Or.inl h
  refine ⟨hiff i j, ?_, ?_⟩
  · rw [hiff i j, hiff j i]
    constructor
    · rintro ⟨h1, h2, h3, h4⟩
      exact ⟨h2, h1, h3.symm, by rw [nodeDist_comm]; exact h4⟩
    · rintro ⟨h1, h2, h3, h4⟩
      exact ⟨h2, h1, h3.symm, by rw [nodeDist_comm]; exact h4⟩
  · rw [hiff i i]
    rintro ⟨_, _, h3, _⟩
    exact h3 rfl

/-- Witness for C6 at a concrete two-node layout: the characterisation of
edge (0, 1) and the absence of a self-loop at node 0. -/
theorem edges_iff_close_symmetric_witness :
    (adjacent (create_edges [((0 : ℝ), 0), (1, 0)] 1) 0 1 ↔
        0 < ([((0 : ℝ), 0), (1, 0)] : List (ℝ × ℝ)).length ∧
          1 < ([((0 : ℝ), 0), (1, 0)] : List (ℝ × ℝ)).length ∧
          (0 : ℕ) ≠ 1 ∧
          nodeDist (([((0 : ℝ), 0), (1, 0)] : List (ℝ × ℝ)).getD 0 (0, 0))
              (([((0 : ℝ), 0), (1, 0)] : List (ℝ × ℝ)).getD 1 (0, 0)) ≤ 1) ∧
      ¬adjacent (create_edges [((0 : ℝ), 0), (1, 0)] 1) 0 0 :=
  ⟨(edges_iff_close_symmetric [((0 : ℝ), 0), (1, 0)] 1 0 1).1,
    (edges_iff_close_symmetric [((0 : ℝ), 0), (1, 0)] 1 0 0).2.2⟩

/-! Lemmas for C7: the bisection search of
`_calculate_communication_radius`. -/

/-- Characterisation of the early-exit bisection in terms of the plain
bracket-narrowing iteration: if no inspected midpoint meets the tolerance
the result is the midpoint of the final (15th) bracket, and if iteration k
is the first to meet it the result is that midpoint. -/
theorem bisect_narrow (avg : ℚ → ℚ) (target : ℚ) :
    ∀ (fuel : ℕ) (lo hi : ℚ),
      ((∀ k, k < fuel → ¬tolMet avg target
          ((narrowStep avg target)^[k] (lo, hi))) →
        bisect avg target fuel lo hi =
          midpt ((narrowStep avg target)^[fuel] (lo, hi))) ∧
      (∀ k, k < fuel →
        tolMet avg target ((narrowStep avg target)^[k] (lo, hi)) →
        (∀ j, j < k → ¬tolMet avg target
          ((narrowStep avg target)^[j] (lo, hi))) →
        bisect avg target fuel lo hi =
          midpt ((narrowStep avg target)^[k] (lo, hi))) := by
  intro fuel
  induction fuel with
  | zero =>
    intro lo hi
    exact ⟨fun _ => rfl, fun k hk => absurd hk (by omega)⟩
  | succ fuel ih =>
    intro lo hi
    constructor
    · intro hno
      have h0 : ¬tolMet avg target (lo, hi) := by
        have := hno 0 (by omega)
        simpa using this
      have h0b : ¬(|avg ((lo + hi) / 2) - target| < 3 / 10) := h0
      unfold bisect
      rw [if_neg h0b]
      by_cases hlt : avg ((lo + hi) / 2) < target
      · rw [if_pos hlt]
        have hnarrow : narrowStep avg target (lo, hi) = ((lo + hi) / 2, hi) := by
          unfold narrowStep
          rw [if_pos hlt]
        have hrec := (ih ((lo + hi) / 2) hi).1 ?_
        · rw [hrec, Function.iterate_succ_apply, hnarrow]
        · intro k hk
          have := hno (k + 1) (by omega)
          rw [Function.iterate_succ_apply, hnarrow] at this
          exact this
      · rw [if_neg hlt]
        have hnarrow : narrowStep avg target (lo, hi) = (lo, (lo + hi) / 2) := by
          unfold narrowStep
          rw [if_neg hlt]
        have hrec := (ih lo ((lo + hi) / 2)).1 ?_
        · rw [hrec, Function.iterate_succ_apply, hnarrow]
        · intro k hk
          have := hno (k + 1) (by omega)
          rw [Function.iterate_succ_apply, hnarrow] at this
          exact this
    · intro k hk htol hbefore
      match k with
      | 0 =>
        have h0 : tolMet avg target (lo, hi) := by simpa using htol
        have h0b : |avg ((lo + hi) / 2) - target| < 3 / 10 := h0
        unfold bisect
        rw [if_pos h0b]
        rw [Function.iterate_zero_apply]
        rfl
      | Nat.succ k =>
        have h0 : ¬tolMet avg target (lo, hi) := by
          have := hbefore 0 (by omega)
          simpa using this
        have h0b : ¬(|avg ((lo + hi) / 2) - target| < 3 / 10) := h0
        unfold bisect
        rw [if_neg h0b]
        by_cases hlt : avg ((lo + hi) / 2) < target
        · rw [if_pos hlt]
          have hnarrow : narrowStep avg target (lo, hi) =
              ((lo + hi) / 2, hi) := by
            unfold narrowStep
            rw [if_pos hlt]
          have hrec := (ih ((lo + hi) / 2) hi).2 k (by omega) ?_ ?_
          · rw [hrec, Function.iterate_succ_apply, hnarrow]
          · rw [← hnarrow, ← Function.iterate_succ_apply]
            exact htol
          · intro j hj
            have := hbefore (j + 1) (by omega)
            rw [Function.iterate_succ_apply, hnarrow] at this
            exact this
        · rw [if_neg hlt]
          have hnarrow : narrowStep avg target (lo, hi) =
              (lo, (lo + hi) / 2) := by
            unfold narrowStep
            rw [if_neg hlt]
          have hrec := (ih lo ((lo + hi) / 2)).2 k (by omega) ?_ ?_
          · rw [hrec, Function.iterate_succ_apply, hnarrow]
          · rw [← hnarrow, ← Function.iterate_succ_apply]
            exact htol
          · intro j hj
            have := hbefore (j + 1) (by omega)
            rw [Function.iterate_succ_apply, hnarrow] at this
            exact this

/-- C7.  Radius calibration returns `space_size / 4` without search for
fewer than two nodes; otherwise it bisects on the bracket spanned by the
smallest and largest collected pairwise distance (2000 randomly sampled
pair distances for more than 50 nodes, all pairs otherwise) for at most 15
iterations, returning the midpoint of the first bracket whose achieved
average degree is within 0.3 of the target, and the midpoint of the final
bracket when no iteration meets the tolerance. -/
theorem radius_calibration_bisection (d : ℕ → ℕ → ℚ) (samp : ℕ → ℕ × ℕ)
    (n : ℕ) (space_size target : ℚ) :
    (n < 2 → calculate_communication_radius d samp n space_size target =
        space_size / 4) ∧
      (2 ≤ n →
        ((∀ k, k < 15 → ¬tolMet (average_neighbors d n) target
              ((narrowStep (average_neighbors d n) target)^[k]
                (listMin (sampledDists d samp n),
                  listMax (sampledDists d samp n)))) →
          calculate_communication_radius d samp n space_size target =
            midpt ((narrowStep (average_neighbors d n) target)^[15]
              (listMin (sampledDists d samp n),
                listMax (sampledDists d samp n)))) ∧
        (∀ k, k < 15 →
          tolMet (average_neighbors d n) target
            ((narrowStep (average_neighbors d n) target)^[k]
              (listMin (sampledDists d samp n),
                listMax (sampledDists d samp n))) →
          (∀ j, j < k → ¬tolMet (average_neighbors d n) target
              ((narrowStep (average_neighbors d n) target)^[j]
                (listMin (sampledDists d samp n),
                  listMax (sampledDists d samp n)))) →
          calculate_communication_radius d samp n space_size target =
            midpt ((narrowStep (average_neighbors d n) target)^[k]
              (listMin (sampledDists d samp n),
                listMax (sampledDists d samp n))))) := by
  constructor
  · intro h
    unfold calculate_communication_radius
    rw [if_pos h]
  · intro h
    unfold calculate_communication_radius
    rw [if_neg (by omega)]
    exact ⟨(bisect_narrow (average_neighbors d n) target 15 _ _).1,
      fun k hk => (bisect_narrow (average_neighbors d n) target 15 _ _).2 k hk⟩

/-- Folding `min` over a constant list is a no-op. -/
theorem foldl_min_const (c : ℚ) :
    ∀ l : List ℚ, (∀ x ∈ l, x = c) → l.foldl min c = c := by
  intro l
  induction l with
  | nil => intro _; rfl
  | cons x xs ih =>
    intro h
    rw [List.foldl_cons, h x (List.mem_cons_self _ _), min_self]
    exact ih fun y hy => h y (List.mem_cons_of_mem _ hy)

/-- Folding `max` over a constant list is a no-op. -/
theorem foldl_max_const (c : ℚ) :
    ∀ l : List ℚ, (∀ x ∈ l, x = c) → l.foldl max c = c := by
  intro l
  induction l with
  | nil => intro _; rfl
  | cons x xs ih =>
    intro h
    rw [List.foldl_cons, h x (List.mem_cons_self _ _), max_self]
    exact ih fun y hy => h y (List.mem_cons_of_mem _ hy)

theorem listMin_const (c : ℚ) :
    ∀ l : List ℚ, l ≠ [] → (∀ x ∈ l, x = c) → listMin l = c := by
  intro l
  match l with
  | [] => intro h; exact absurd rfl h
  | x :: xs =>
    intro _ h
    unfold listMin
    rw [h x (List.mem_cons_self _ _)]
    exact foldl_min_const c xs fun y hy => h y (List.mem_cons_of_mem _ hy)

theorem listMax_const (c : ℚ) :
    ∀ l : List ℚ, l ≠ [] → (∀ x ∈ l, x = c) → listMax l = c := by
  intro l
  match l with
  | [] => intro h; exact absurd rfl h
  | x :: xs =>
    intro _ h
    unfold listMax
    rw [h x (List.mem_cons_self _ _)]
    exact foldl_max_const c xs fun y hy => h y (List.mem_cons_of_mem _ hy)

/-- Witness for C7, exercising all three paths: the degenerate single-node
case returns a quarter of the space size; for two nodes at distance 3 (the
exact all-pairs branch) and for 51 nodes at uniform distance 3 (the
2000-sample branch) the target is set to the achieved average degree at
radius 3, so the very first midpoint of the degenerate bracket [3, 3]
meets the tolerance and is returned. -/
theorem radius_calibration_bisection_witness :
    calculate_communication_radius (fun _ _ => 3) (fun _ => (0, 1)) 1 200 4 =
        200 / 4 ∧
      calculate_communication_radius (fun _ _ => 3) (fun _ => (0, 1)) 2 200
        (average_neighbors (fun _ _ => 3) 2 3) = 3 ∧
      calculate_communication_radius (fun _ _ => 3) (fun _ => (0, 1)) 51 200
        (average_neighbors (fun _ _ => 3) 51 3) = 3 := by
  have hm : midpt ((3 : ℚ), 3) = 3 := by norm_num [midpt]
  refine ⟨?_, ?_, ?_⟩
  · exact (radius_calibration_bisection (fun _ _ => 3) (fun _ => (0, 1))
      1 200 4).1 (by omega)
  · have hlm : listMin (sampledDists (fun _ _ => (3 : ℚ))
        (fun _ => (0, 1)) 2) = 3 := rfl
    have hlx : listMax (sampledDists (fun _ _ => (3 : ℚ))
        (fun _ => (0, 1)) 2) = 3 := rfl
    have h := ((radius_calibration_bisection (fun _ _ => (3 : ℚ))
      (fun _ => (0, 1)) 2 200 (average_neighbors (fun _ _ => 3) 2 3)).2
      (by omega)).2 0 (by omega) ?_ (fun j hj => absurd hj (by omega))
    · rw [h, Function.iterate_zero_apply, hlm, hlx, hm]
    · rw [Function.iterate_zero_apply, hlm, hlx]
      show |average_neighbors (fun _ _ => (3 : ℚ)) 2 (midpt (3, 3)) -
          average_neighbors (fun _ _ => 3) 2 3| < 3 / 10
      rw [hm, sub_self, abs_zero]
      norm_num
  · have hconst : ∀ x ∈ sampledDists (fun _ _ => (3 : ℚ))
        (fun _ => (0, 1)) 51, x = 3 := by
      intro x hx
      unfold sampledDists at hx
      rw [if_pos (by omega)] at hx
      rcases List.mem_map.mp hx with ⟨t, _, ht⟩
      exact ht.symm
    have hne : sampledDists (fun _ _ => (3 : ℚ)) (fun _ => (0, 1)) 51 ≠
        [] := by
      unfold sampledDists
      rw [if_pos (by omega)]
      apply List.ne_nil_of_length_pos
      rw [List.length_map, List.length_range]
      omega
    have hlm : listMin (sampledDists (fun _ _ => (3 : ℚ))
        (fun _ => (0, 1)) 51) = 3 := listMin_const 3 _ hne hconst
    have hlx : listMax (sampledDists (fun _ _ => (3 : ℚ))
        (fun _ => (0, 1)) 51) = 3 := listMax_const 3 _ hne hconst
    have h := ((radius_calibration_bisection (fun _ _ => (3 : ℚ))
      (fun _ => (0, 1)) 51 200 (average_neighbors (fun _ _ => 3) 51 3)).2
      (by omega)).2 0 (by omega) ?_ (fun j hj => absurd hj (by omega))
    · rw [h, Function.iterate_zero_apply, hlm, hlx, hm]
    · rw [Function.iterate_zero_apply, hlm, hlx]
      show |average_neighbors (fun _ _ => (3 : ℚ)) 51 (midpt (3, 3)) -
          average_neighbors (fun _ _ => 3) 51 3| < 3 / 10
      rw [hm, sub_self, abs_zero]
      norm_num

/-! Lemmas for C8: the placement loop keeps every pairwise squared
distance at or above the square of the separation in force at the end. -/

theorem dist2_comm (p q : ℚ × ℚ) : dist2 p q = dist2 q p := by
  unfold dist2
  ring

theorem place_nodes_loop_inv (cand : ℕ → ℚ × ℚ) (count budget : ℕ) :
    ∀ (fuel attempts : ℕ) (positions : List (ℚ × ℚ)) (minDist : ℚ),
      0 ≤ minDist →
      List.Pairwise (fun p q => minDist ^ 2 ≤ dist2 p q) positions →
      0 ≤ (place_nodes_loop cand count budget fuel attempts positions
          minDist).2 ∧
        (place_nodes_loop cand count budget fuel attempts positions
          minDist).2 ≤ minDist ∧
        List.Pairwise (fun p q =>
            (place_nodes_loop cand count budget fuel attempts positions
              minDist).2 ^ 2 ≤ dist2 p q)
          (place_nodes_loop cand count budget fuel attempts positions
            minDist).1 := by
  intro fuel
  induction fuel with
  | zero => exact fun attempts pos minDist h0 hp => ⟨h0, le_refl _, hp⟩
  | succ fuel ih =>
    intro attempts pos minDist h0 hp
    unfold place_nodes_loop
    by_cases hcount : pos.length < count
    · rw [if_pos hcount]
      by_cases hclose : tooClose (cand attempts) pos minDist = true
      · rw [if_pos hclose]
        by_cases hrelax : 3 * budget < 4 * (attempts + 1)
        · rw [if_pos hrelax]
          have hm0 : (0 : ℚ) ≤ minDist * (98 / 100) :=
            mul_nonneg h0 (by norm_num)
          have hmle : minDist * (98 / 100) ≤ minDist :=
            mul_le_of_le_one_right h0 (by norm_num)
          have hsq : (minDist * (98 / 100)) ^ 2 ≤ minDist ^ 2 := by
            nlinarith [sq_nonneg minDist]
          obtain ⟨r0, rle, rp⟩ := ih (attempts + 1) pos (minDist * (98 / 100))
            hm0 (hp.imp fun hpq => le_trans hsq hpq)
          exact ⟨r0, rle.trans hmle, rp⟩
        · rw [if_neg hrelax]
          exact ih (attempts + 1) pos minDist h0 hp
      · rw [if_neg hclose]
        have hfar : ∀ q ∈ pos, minDist ^ 2 ≤ dist2 (cand attempts) q := by
          intro q hq
          by_contra hlt
          apply hclose
          unfold tooClose
          rw [List.any_eq_true]
          exact ⟨q, hq, by simpa using not_le.mp hlt⟩
        have hp2 : List.Pairwise (fun p q => minDist ^ 2 ≤ dist2 p q)
            (pos ++ [cand attempts]) := by
          rw [List.pairwise_append]
          refine ⟨hp, List.pairwise_singleton _ _, ?_⟩
          intro a ha b hb
          rw [List.mem_singleton] at hb
          subst hb
          rw [dist2_comm]
          exact hfar a ha
        exact ih (attempts + 1) (pos ++ [cand attempts]) minDist h0 hp2
    · rw [if_neg hcount]
      exact ⟨h0, le_refl _, hp⟩

/-- C8.  After placement, the effective minimum separation returned is
nonnegative, never larger than the initial one (it only decreases, by the
`× 0.98` relaxations), and every pairwise squared distance between placed
nodes is at least its square — i.e. every pairwise distance is at least
the effective minimum separation in force at the end of placement. -/
theorem placement_min_separation (cand : ℕ → ℚ × ℚ) (count budget : ℕ)
    (minDist0 : ℚ) (h0 : 0 ≤ minDist0) :
    0 ≤ (place_nodes cand count budget minDist0).2 ∧
      (place_nodes cand count budget minDist0).2 ≤ minDist0 ∧
      List.Pairwise (fun p q =>
          (place_nodes cand count budget minDist0).2 ^ 2 ≤ dist2 p q)
        (place_nodes cand count budget minDist0).1 :=
  place_nodes_loop_inv cand count budget budget 0 [] minDist0 h0 (by simp)

/-- Witness for C8: three collinear integer points at unit spacing, unit
initial separation. -/
theorem placement_min_separation_witness :
    0 ≤ (place_nodes (fun k => ((k : ℚ), 0)) 3 5 1).2 ∧
      (place_nodes (fun k => ((k : ℚ), 0)) 3 5 1).2 ≤ 1 ∧
      List.Pairwise (fun p q =>
          (place_nodes (fun k => ((k : ℚ), 0)) 3 5 1).2 ^ 2 ≤ dist2 p q)
        (place_nodes (fun k => ((k : ℚ), 0)) 3 5 1).1 :=
  placement_min_separation (fun k => ((k : ℚ), 0)) 3 5 1 (by norm_num)

end MeshSim
